import Mathlib

/-!
Verification of the wildlife-corridor maximum-flow core
(`problem1_network_flow.cpp`): a shallow embedding of the `MaxFlow`
engine (Edmonds-Karp over a dense residual matrix) and of the
`WildlifeCorridorNetwork` reduction driver, together with proofs of the
specified properties.

Machine `int` values are modelled as unbounded `Int` (all capacities in
the domain are at most 100 and the claims under study are not about
overflow); the literal `INT_MAX` is kept as its concrete value so that
bottleneck computations follow the source exactly.  The C++ `while`
loops are embedded as follows: the BFS worklist loop is a well-founded
recursion on `queue length + number of unvisited nodes` (the measure
that makes the C++ loop terminate), the predecessor-chain walk and the
outer augmenting loop take an explicit bound (`n + 1`, resp. one more
than the total residual capacity leaving the source); the theorems about
termination show these bounds are never reached.
-/

namespace NetworkFlow

def INT_MAX : Int := 2147483647

/-- State of the C++ `MaxFlow` object: node count, dense residual
matrix (`capacity`), and per-node adjacency lists. -/
structure MaxFlow where
  n : Nat
  capacity : Nat → Nat → Int
  adj : Nat → List Nat

/-- `MaxFlow(int n)`: all-zero matrix, empty adjacency lists. -/
def MaxFlow.mk0 (n : Nat) : MaxFlow :=
  ⟨n, fun _ _ => 0, fun _ => []⟩

/-- Point update of the residual matrix (`capacity[u][v] = x`). -/
def setCap (c : Nat → Nat → Int) (u v : Nat) (x : Int) : Nat → Nat → Int :=
  fun a b => if a = u ∧ b = v then x else c a b

/-- `MaxFlow::addEdge(u, v, cap)`: when both directed slots of the pair
are still zero, record the pair in both adjacency lists (in C++,
`adj[u].push_back(v); adj[v].push_back(u)`, applied in that order); in
every case add `cap` onto `capacity[u][v]`. -/
def MaxFlow.addEdge (m : MaxFlow) (u v : Nat) (cap : Int) : MaxFlow :=
  let adj' :=
    if m.capacity u v = 0 ∧ m.capacity v u = 0 then
      let a1 := Function.update m.adj u (m.adj u ++ [v])
      Function.update a1 v (a1 v ++ [u])
    else m.adj
  ⟨m.n, setCap m.capacity u v (m.capacity u v + cap), adj'⟩

/-- Inner loop of `MaxFlow::bfs`: scan the adjacency list of the
dequeued node `u`.  A neighbour `v` passes the guard
`parent[v] == -1 && capacity[u][v] > 0`; it then gets its parent
recorded, and either the search returns `true` on the spot (`v == sink`)
or `(v, min(flow, capacity[u][v]))` is appended to the worklist.
Result: `(parent, newly queued pairs, sink found)`. -/
def visitNeighbors (cap : Nat → Nat → Int) (sink u : Nat) (fl : Int) :
    List Nat → List Int → List Int × List (Nat × Int) × Bool
  | [], parent => (parent, [], false)
  | v :: vs, parent =>
    if parent.getD v 0 = -1 ∧ 0 < cap u v then
      let parent' := parent.set v (u : Int)
      let newFlow := min fl (cap u v)
      if v = sink then (parent', [], true)
      else
        let r := visitNeighbors cap sink u fl vs parent'
        (r.1, (v, newFlow) :: r.2.1, r.2.2)
    else visitNeighbors cap sink u fl vs parent

/-- Worklist loop of `MaxFlow::bfs` (`while (!q.empty())`), embedded
with an explicit step bound so that it stays a structural recursion:
each iteration dequeues one node and enqueues only nodes whose parent
entry just moved off `-1`, so `queue length + number of -1 entries`
falls by one per step and the bound `n + 2` passed by `bfs` is never
reached (`visitNeighbors_count` is the counting argument). -/
def bfsAux (cap : Nat → Nat → Int) (adj : Nat → List Nat) (sink : Nat) :
    Nat → List (Nat × Int) → List Int → Bool × List Int
  | 0, _, parent => (false, parent)
  | _ + 1, [], parent => (false, parent)
  | fuel + 1, (u, fl) :: rest, parent =>
    let r := visitNeighbors cap sink u fl (adj u) parent
    if r.2.2 then (true, r.1)
    else bfsAux cap adj sink fuel (rest ++ r.2.1) r.1

/-- `MaxFlow::bfs(source, sink, parent)`: reset `parent` to `-1`, mark
the source as its own parent, run the worklist from `(source, INT_MAX)`. -/
def bfs (n : Nat) (cap : Nat → Nat → Int) (adj : Nat → List Nat)
    (source sink : Nat) : Bool × List Int :=
  bfsAux cap adj sink (n + 2) [(source, INT_MAX)]
    (((List.replicate n (-1)).set source (source : Int)))

/-- The walk `for (v = sink; v != source; v = parent[v])`, made total by
an explicit bound on the number of steps; it returns the traversed arcs
`(parent[v], v)` in walk order (sink end first). -/
def chainArcs (parent : List Int) (source : Nat) : Nat → Nat → Option (List (Nat × Nat))
  | 0, _ => none
  | fuel + 1, v =>
    if v = source then some []
    else
      let u := (parent.getD v 0).toNat
      match chainArcs parent source fuel u with
      | none => none
      | some arcs => some ((u, v) :: arcs)

/-- First walk of the augmenting loop: bottleneck
`path_flow = min(path_flow, capacity[u][v])` starting from `INT_MAX`. -/
def pathFlowOf (cap : Nat → Nat → Int) (arcs : List (Nat × Nat)) : Int :=
  arcs.foldl (fun acc p => min acc (cap p.1 p.2)) INT_MAX

/-- One step of the second walk:
`capacity[u][v] -= path_flow; capacity[v][u] += path_flow`. -/
def applyArc (cap : Nat → Nat → Int) (u v : Nat) (f : Int) : Nat → Nat → Int :=
  let c1 := setCap cap u v (cap u v - f)
  setCap c1 v u (c1 v u + f)

/-- Second walk of the augmenting loop: push the bottleneck across every
arc of the recorded path. -/
def augment (cap : Nat → Nat → Int) (arcs : List (Nat × Nat)) (f : Int) :
    Nat → Nat → Int :=
  arcs.foldl (fun c p => applyArc c p.1 p.2 f) cap

/-- The loop `while (bfs(source, sink, parent))` of `MaxFlow::maxflow`,
with an explicit iteration bound; returns the accumulated flow value
together with the final residual matrix (the C++ object state). -/
def maxflowAux (adj : Nat → List Nat) (n source sink : Nat) :
    Nat → (Nat → Nat → Int) → Int → Int × (Nat → Nat → Int)
  | 0, cap, flow => (flow, cap)
  | fuel + 1, cap, flow =>
    let r := bfs n cap adj source sink
    if r.1 then
      match chainArcs r.2 source (n + 1) sink with
      | none => (flow, cap)
      | some arcs =>
        let f := pathFlowOf cap arcs
        maxflowAux adj n source sink fuel (augment cap arcs f) (flow + f)
    else (flow, cap)

/-- Iteration bound used to embed the `while` loop of
`MaxFlow::maxflow`: one more than the total residual capacity leaving
the source.  Each successful augmentation moves at least one unit out of
that budget, so the bound is never reached (`solve_loop_reaches_fixpoint`). -/
def maxflowFuel (n : Nat) (cap : Nat → Nat → Int) (source : Nat) : Nat :=
  (Finset.range n).sum (fun v => (cap source v).toNat) + 1

/-- `MaxFlow::maxflow(source, sink)`. -/
def MaxFlow.maxflow (m : MaxFlow) (source sink : Nat) : Int × (Nat → Nat → Int) :=
  maxflowAux m.adj m.n source sink (maxflowFuel m.n m.capacity source) m.capacity 0

/-- `MaxFlow::getUsedCorridors(numHabitats)`: for every `i < j`, report
`((i, j), capacity[j][i])` whenever the reverse entry is positive. -/
def getUsedCorridors (numHabitats : Nat) (cap : Nat → Nat → Int) :
    List ((Nat × Nat) × Int) :=
  ((List.range numHabitats).map fun i =>
    (((List.range numHabitats).filter fun j => i < j).filterMap fun j =>
      if 0 < cap j i then some ((i, j), cap j i) else none)).flatten

/-- State of the C++ `WildlifeCorridorNetwork` object.  The corridor
map `map<pair<int,int>, int>` is embedded as its entry list in key
order (which is also insertion order, since `buildCorridorNetwork`
inserts keys `(i, j)`, `i < j`, in lexicographic order). -/
structure WildlifeCorridorNetwork where
  numHabitats : Nat
  habitatLocations : List (Real × Real)
  corridorCapacity : List ((Nat × Nat) × Int)
  sourceHabitat : Nat
  targetHabitat : Nat

/-- The corridor-insertion loop of `WildlifeCorridorNetwork::solve`:
each map entry `((h1, h2), cap)` becomes the two calls
`addEdge(h1, h2, cap); addEdge(h2, h1, cap)`. -/
def addCorridors (n : Nat) (entries : List ((Nat × Nat) × Int)) : MaxFlow :=
  entries.foldl
    (fun m e => (m.addEdge e.1.1 e.1.2 e.2).addEdge e.1.2 e.1.1 e.2)
    (MaxFlow.mk0 n)

/-- `WildlifeCorridorNetwork::solve()`: build a fresh `MaxFlow`, add
every corridor bidirectionally, run `maxflow`, extract used corridors.
The method writes no member of the object, so its post-state is the
pre-state unchanged; the embedding records this by returning the
`WildlifeCorridorNetwork` value alongside the result pair. -/
def WCsolve (w : WildlifeCorridorNetwork) :
    (Int × List ((Nat × Nat) × Int)) × WildlifeCorridorNetwork :=
  let mf := addCorridors w.numHabitats w.corridorCapacity
  let r := mf.maxflow w.sourceHabitat w.targetHabitat
  ((r.1, getUsedCorridors w.numHabitats r.2), w)

/-- `WildlifeCorridorNetwork::distance(h1, h2)`: Euclidean distance
between two habitat locations.  C++ `double` arithmetic is modelled as
exact real arithmetic. -/
noncomputable def distance (locs : List (Real × Real)) (h1 h2 : Nat) : Real :=
  let dx := (locs.getD h1 (0, 0)).1 - (locs.getD h2 (0, 0)).1
  let dy := (locs.getD h1 (0, 0)).2 - (locs.getD h2 (0, 0)).2
  Real.sqrt (dx * dx + dy * dy)

/-- The C++ conversion `(int)x` for `double x`: truncation toward zero. -/
noncomputable def truncToInt (x : Real) : Int :=
  if 0 ≤ x then ⌊x⌋ else -⌊-x⌋

/-- `WildlifeCorridorNetwork::calculateCorridorCapacity(h1, h2, maxDist)`:
0 when the distance exceeds `maxDist`, otherwise
`max(1, (int)(100 * (1 - dist/maxDist)^2))`. -/
noncomputable def calculateCorridorCapacity (locs : List (Real × Real))
    (h1 h2 : Nat) (maxDist : Real) : Int :=
  let dist := distance locs h1 h2
  if maxDist < dist then 0
  else
    let normalized := 1 - dist / maxDist
    let capacity := truncToInt (100 * normalized * normalized)
    max 1 capacity

/-- `WildlifeCorridorNetwork::buildCorridorNetwork(maxCorridorDistance)`:
enumerate all pairs `i < j` in lexicographic order and store the
positive capacities (the `std::map` is embedded as its entry list in key
order, which coincides with insertion order here). -/
noncomputable def buildCorridorNetwork (numHabitats : Nat) (locs : List (Real × Real))
    (maxCorridorDistance : Real) : List ((Nat × Nat) × Int) :=
  ((List.range numHabitats).map fun i =>
    (((List.range numHabitats).filter fun j => i < j).filterMap fun j =>
      let c := calculateCorridorCapacity locs i j maxCorridorDistance
      if 0 < c then some ((i, j), c) else none)).flatten

/-- Invariant of the BFS parent array: its length is `n`, the source is
its own parent, and every other discovered node `v` records a discovered
predecessor `u < n` with positive residual capacity on `(u, v)`; a rank
function certifies that predecessor chains are acyclic, and the rank of
every discovered node stays below `n` minus the number of undiscovered
slots (so chains have length less than `n`). -/
structure ParentInv (n : Nat) (cap : Nat → Nat → Int) (adj : Nat → List Nat)
    (source : Nat) (parent : List Int) : Prop where
  len : parent.length = n
  src_lt : source < n
  src_vis : parent.getD source 0 = (source : Int)
  rank : ∃ r : Nat → Nat,
    (∀ v, v < n → v ≠ source → parent.getD v 0 ≠ -1 →
      ∃ u : Nat, parent.getD v 0 = (u : Int) ∧ u < n ∧ 0 < cap u v
        ∧ v ∈ adj u ∧ parent.getD u 0 ≠ -1 ∧ r u < r v)
    ∧ (∀ v, v < n → parent.getD v 0 ≠ -1 → r v + parent.count (-1) < n)

/-- A feasible (skew-symmetric) flow for the capacity matrix `C` between
`s` and `t` on the nodes `[0, n)`: antisymmetric, bounded by the
capacities, and conserved at every internal node. -/
def Feasible (n : Nat) (C : Nat → Nat → Int) (s t : Nat)
    (g : Nat → Nat → Int) : Prop :=
  (∀ u v, g u v = - g v u)
  ∧ (∀ u v, u < n → v < n → g u v ≤ C u v)
  ∧ (∀ u, u < n → u ≠ s → u ≠ t → (Finset.range n).sum (fun v => g u v) = 0)

/-- Value of a flow: net outflow of the source. -/
def flowValue (n s : Nat) (g : Nat → Nat → Int) : Int :=
  (Finset.range n).sum (fun v => g s v)

/-- Capacity of the cut `(S, [0,n) \ S)`. -/
def cutCap (n : Nat) (C : Nat → Nat → Int) (S : Finset Nat) : Int :=
  S.sum (fun u => ((Finset.range n) \ S).sum (fun v => C u v))

/-! ## Basic lemmas about the embedding -/

theorem getD_set_self : ∀ (l : List Int) (v : Nat) (x : Int), v < l.length →
    (l.set v x).getD v 0 = x := by
  intro l
  induction l with
  | nil => intro v x h; simp at h
  | cons a l ih =>
    intro v x h
    cases v with
    | zero => simp
    | succ v =>
      have : v < l.length := by simpa using h
      simpa [List.getD] using ih v x this

theorem getD_set_ne : ∀ (l : List Int) (v w : Nat) (x : Int), w ≠ v →
    (l.set v x).getD w 0 = l.getD w 0 := by
  intro l
  induction l with
  | nil => intro v w x _; simp
  | cons a l ih =>
    intro v w x hwv
    cases v with
    | zero =>
      cases w with
      | zero => exact absurd rfl hwv
      | succ w => simp [List.getD]
    | succ v =>
      cases w with
      | zero => simp [List.getD]
      | succ w =>
        have : w ≠ v := by omega
        simpa [List.getD] using ih v w x this

theorem getD_replicate_lt (n v : Nat) (x : Int) (h : v < n) :
    (List.replicate n x).getD v 0 = x := by
  induction n generalizing v with
  | zero => omega
  | succ n ih =>
    cases v with
    | zero => simp [List.replicate]
    | succ v =>
      have : v < n := by omega
      simpa [List.replicate, List.getD] using ih v this

theorem count_set_of_get : ∀ (l : List Int) (v : Nat) (x y : Int), v < l.length →
    (l.set v x).count y + (if l.getD v 0 = y then 1 else 0)
      = l.count y + (if x = y then 1 else 0) := by
  intro l
  induction l with
  | nil => intro v x y h; simp at h
  | cons a l ih =>
    intro v x y h
    cases v with
    | zero =>
      simp [List.count_cons, List.getD]
      by_cases hxy : x = y <;> by_cases hay : a = y <;> simp [hxy, hay]
    | succ v =>
      have hv : v < l.length := by simpa using h
      have := ih v x y hv
      simp [List.count_cons, List.getD] at *
      by_cases hay : a = y <;> simp [hay] <;> omega

theorem getD_lt_length {l : List Int} {v : Nat} (h : l.getD v 0 = -1) :
    v < l.length := by
  by_contra hc
  rw [List.getD_eq_default] at h
  · exact absurd h (by decide)
  · omega

/-- The parent entries rewritten by one adjacency scan were all `-1`
before, so the number of `-1` entries drops by at least the number of
newly queued pairs. -/
theorem visitNeighbors_count (cap : Nat → Nat → Int) (sink u : Nat) (fl : Int) :
    ∀ (vs : List Nat) (parent : List Int),
      (visitNeighbors cap sink u fl vs parent).1.count (-1)
        + (visitNeighbors cap sink u fl vs parent).2.1.length
        ≤ parent.count (-1) := by
  intro vs
  induction vs with
  | nil => intro parent; simp [visitNeighbors]
  | cons v vs ih =>
    intro parent
    simp only [visitNeighbors]
    by_cases hg : parent.getD v 0 = -1 ∧ 0 < cap u v
    · rw [if_pos hg]
      have hlt : v < parent.length := getD_lt_length hg.1
      have hcnt := count_set_of_get parent v (u : Int) (-1) hlt
      rw [if_pos hg.1, if_neg (by omega : ¬ (u : Int) = -1)] at hcnt
      by_cases hs : v = sink
      · rw [if_pos hs]
        simp only [List.length_nil]
        omega
      · rw [if_neg hs]
        simp only [List.length_cons]
        have := ih (parent.set v (u : Int))
        omega
    · rw [if_neg hg]; exact ih parent

/-- Effect of `addEdge` on one matrix entry. -/
theorem addEdge_capacity (m : MaxFlow) (u v : Nat) (c : Int) (a b : Nat) :
    (m.addEdge u v c).capacity a b
      = m.capacity a b + (if a = u ∧ b = v then c else 0) := by
  simp only [MaxFlow.addEdge, setCap]
  by_cases h : a = u ∧ b = v
  · obtain ⟨rfl, rfl⟩ := h
    simp
  · simp [h]

/-- Effect of the driver's corridor loop on one matrix entry: each map
entry `((h1, h2), c)` contributes `c` to slot `(h1, h2)` and `c` to slot
`(h2, h1)`. -/
theorem addCorridors_capacity (n : Nat) (entries : List ((Nat × Nat) × Int))
    (a b : Nat) :
    (addCorridors n entries).capacity a b
      = (entries.map fun e =>
          (if e.1 = (a, b) then e.2 else 0) + (if e.1 = (b, a) then e.2 else 0)).sum := by
  have key : ∀ (es : List ((Nat × Nat) × Int)) (m : MaxFlow),
      (es.foldl (fun m e => (m.addEdge e.1.1 e.1.2 e.2).addEdge e.1.2 e.1.1 e.2) m).capacity a b
        = m.capacity a b
          + (es.map fun e =>
              (if e.1 = (a, b) then e.2 else 0) + (if e.1 = (b, a) then e.2 else 0)).sum := by
    intro es
    induction es with
    | nil => intro m; simp
    | cons e es ih =>
      intro m
      obtain ⟨⟨x, y⟩, cv⟩ := e
      rw [List.foldl_cons, ih, List.map_cons, List.sum_cons]
      rw [addEdge_capacity, addEdge_capacity]
      have e1 : (((x, y) : Nat × Nat) = (a, b)) ↔ (a = x ∧ b = y) := by
        simp only [Prod.mk.injEq]; omega
      have e2 : (((x, y) : Nat × Nat) = (b, a)) ↔ (a = y ∧ b = x) := by
        simp only [Prod.mk.injEq]; omega
      simp only [e1, e2]
      ring
  unfold addCorridors
  rw [key]
  simp [MaxFlow.mk0]

/-- Summing the contributions of a key that occurs exactly once. -/
theorem sum_if_key_eq (entries : List ((Nat × Nat) × Int)) (k : Nat × Nat) (c : Int)
    (hnd : (entries.map Prod.fst).Nodup) (hmem : (k, c) ∈ entries) :
    (entries.map fun e => if e.1 = k then e.2 else 0).sum = c := by
  induction entries with
  | nil => simp at hmem
  | cons e es ih =>
    simp only [List.map_cons, List.nodup_cons] at hnd
    rcases List.mem_cons.1 hmem with he | he
    · subst he
      simp only [List.map_cons, List.sum_cons]
      have hz : (es.map fun e => if e.1 = k then e.2 else 0).sum = 0 := by
        apply List.sum_eq_zero
        intro z hin
        rcases List.mem_map.1 hin with ⟨e', he', rfl⟩
        have hne : e'.1 ≠ k := fun hk => hnd.1 (List.mem_map.2 ⟨e', he', hk⟩)
        simp [hne]
      rw [hz]
      simp
    · have hne : e.1 ≠ k := fun hk => hnd.1 (List.mem_map.2 ⟨(k, c), he, hk.symm⟩)
      simp only [List.map_cons, List.sum_cons, if_neg hne]
      rw [ih hnd.2 he]; ring

/-- Summing the contributions of a key that does not occur. -/
theorem sum_if_key_zero (entries : List ((Nat × Nat) × Int)) (k : Nat × Nat)
    (h : ∀ e ∈ entries, e.1 ≠ k) :
    (entries.map fun e => if e.1 = k then e.2 else 0).sum = 0 := by
  apply List.sum_eq_zero
  intro z hin
  rcases List.mem_map.1 hin with ⟨e, he, rfl⟩
  simp [h e he]

/-- A self-loop arc update cancels out. -/
theorem applyArc_self (cap : Nat → Nat → Int) (u : Nat) (f : Int) (a b : Nat) :
    applyArc cap u u f a b = cap a b := by
  simp only [applyArc, setCap]
  by_cases h : a = u ∧ b = u
  · obtain ⟨rfl, rfl⟩ := h; simp
  · simp [h]

/-- Pushing flow across one arc moves capacity from the forward slot to
the backward slot: the sum over any unordered pair is untouched. -/
theorem applyArc_pairSum (cap : Nat → Nat → Int) (u v : Nat) (f : Int) (a b : Nat) :
    applyArc cap u v f a b + applyArc cap u v f b a = cap a b + cap b a := by
  by_cases huv : u = v
  · subst huv; rw [applyArc_self, applyArc_self]
  · by_cases h1 : a = u ∧ b = v
    · obtain ⟨rfl, rfl⟩ := h1
      simp [applyArc, setCap, huv, Ne.symm huv]
    · by_cases h2 : a = v ∧ b = u
      · obtain ⟨rfl, rfl⟩ := h2
        simp [applyArc, setCap, huv, Ne.symm huv]
      · have h1' : ¬ (b = v ∧ a = u) := fun h => h1 ⟨h.2, h.1⟩
        have h2' : ¬ (b = u ∧ a = v) := fun h => h2 ⟨h.2, h.1⟩
        simp [applyArc, setCap, h1, h2, h1', h2']

/-- `augment` preserves the sum `residual[u][v] + residual[v][u]` for
every ordered pair, whatever path it is given. -/
theorem augment_pairSum (arcs : List (Nat × Nat)) (f : Int) :
    ∀ (cap : Nat → Nat → Int) (a b : Nat),
      augment cap arcs f a b + augment cap arcs f b a = cap a b + cap b a := by
  induction arcs with
  | nil => intro cap a b; simp [augment]
  | cons p arcs ih =>
    intro cap a b
    simp only [augment, List.foldl_cons]
    have := ih (applyArc cap p.1 p.2 f) a b
    simp only [augment] at this
    rw [this, applyArc_pairSum]

/-- Every state reached by the `maxflow` loop preserves the pairwise
residual sums of the state it started from. -/
theorem maxflowAux_pairSum (adj : Nat → List Nat) (n source sink : Nat) :
    ∀ (k : Nat) (cap : Nat → Nat → Int) (flow : Int) (a b : Nat),
      (maxflowAux adj n source sink k cap flow).2 a b
        + (maxflowAux adj n source sink k cap flow).2 b a
        = cap a b + cap b a := by
  intro k
  induction k with
  | zero => intro cap flow a b; simp [maxflowAux]
  | succ k ih =>
    intro cap flow a b
    simp only [maxflowAux]
    by_cases hb : (bfs n cap adj source sink).1
    · rw [if_pos hb]
      cases hc : chainArcs (bfs n cap adj source sink).2 source (n + 1) sink with
      | none => simp
      | some arcs =>
        simp only
        rw [ih, augment_pairSum]
    · rw [if_neg hb]

theorem list_sum_map_add {α : Type} (l : List α) (f g : α → Int) :
    (l.map fun x => f x + g x).sum = (l.map f).sum + (l.map g).sum := by
  induction l with
  | nil => simp
  | cons a l ih => simp [ih]; ring

/-! ## Claim theorems -/

/-- Claim C1, counterexample.  The claim asserts that a pair `{u, v}`
given capacity `c` through the Reduction Driver satisfies
`residual[u][v] + residual[v][u] = c` immediately after network
construction.  On the two-node network whose single corridor has
capacity 5 the driver issues `addEdge(0,1,5)` and `addEdge(1,0,5)`, so
right after construction the sum is `10`, not `5`. -/
theorem C1_driver_pair_conservation_cex :
    (addCorridors 2 [((0, 1), 5)]).capacity 0 1
        + (addCorridors 2 [((0, 1), 5)]).capacity 1 0 = 10
    ∧ ¬ ((addCorridors 2 [((0, 1), 5)]).capacity 0 1
        + (addCorridors 2 [((0, 1), 5)]).capacity 1 0 = 5) := by decide

/-- Claim C1, amended.  Because the Reduction Driver adds every corridor
of capacity `c` in both directions (`addEdge(u,v,c)` then
`addEdge(v,u,c)`), the conserved quantity for the pair `{u, v}` is
`2 * c`: `residual[u][v] + residual[v][u] = 2 * c` immediately after
network construction (`k = 0`) and after every augmenting-path update
performed during `solve` (every `k`), since an update only moves
capacity between the two directions of each arc of the path. -/
theorem C1_driver_pair_conservation
    (n source sink : Nat) (entries : List ((Nat × Nat) × Int)) (u v : Nat) (c : Int)
    (_huv : u ≠ v)
    (hnd : (entries.map Prod.fst).Nodup)
    (hmem : ((u, v), c) ∈ entries)
    (hrev : ∀ e ∈ entries, e.1 ≠ (v, u)) :
    ∀ k : Nat,
      (maxflowAux (addCorridors n entries).adj n source sink k
          (addCorridors n entries).capacity 0).2 u v
        + (maxflowAux (addCorridors n entries).adj n source sink k
            (addCorridors n entries).capacity 0).2 v u = 2 * c := by
  intro k
  rw [maxflowAux_pairSum]
  rw [addCorridors_capacity, addCorridors_capacity]
  rw [list_sum_map_add, list_sum_map_add]
  rw [sum_if_key_eq entries (u, v) c hnd hmem]
  rw [sum_if_key_zero entries (v, u) hrev]
  ring

theorem C1_driver_pair_conservation_witness :
    (maxflowAux (addCorridors 2 [((0, 1), 5)]).adj 2 0 1 1
        (addCorridors 2 [((0, 1), 5)]).capacity 0).2 0 1
      + (maxflowAux (addCorridors 2 [((0, 1), 5)]).adj 2 0 1 1
          (addCorridors 2 [((0, 1), 5)]).capacity 0).2 1 0 = 2 * 5 :=
  C1_driver_pair_conservation 2 0 1 [((0, 1), 5)] 0 1 5
    (by decide) (by decide) (by decide) (by decide) 1

/-- Claim C2, counterexample.  On the 2-node network whose single edge
has capacity 5 (source 0, sink 1) the pipeline does return maximum flow
5, but the Used-Edge Extractor reports `residual[1][0] = 10`, not `5`:
the reverse arc does not start at 0 — the driver's bidirectional
`addEdge` calls initialise it to the corridor capacity 5, and pushing 5
units forward raises it to 10. -/
theorem C2_two_node_pipeline_cex :
    (WCsolve ⟨2, [], [((0, 1), 5)], 0, 1⟩).1.1 = 5
    ∧ (WCsolve ⟨2, [], [((0, 1), 5)], 0, 1⟩).1.2 = [((0, 1), 10)]
    ∧ (WCsolve ⟨2, [], [((0, 1), 5)], 0, 1⟩).1.2 ≠ [((0, 1), 5)] := by decide

/-- Claim C2, amended.  Running the full pipeline on the 2-node network
whose single edge has capacity 5, with source 0 and sink 1, returns
maximum flow 5 and the used-edge list `[(0, 1, 10)]`: the extractor
reports the reverse residual capacity, which starts at 5 (the driver
adds the corridor in both directions) and increases by exactly the flow
pushed forward. -/
theorem C2_two_node_pipeline :
    (WCsolve ⟨2, [], [((0, 1), 5)], 0, 1⟩).1 = (5, [((0, 1), 10)]) := by decide

/-- Claim C4, counterexample.  The claim asserts that `addEdge(u,v,cap)`
appends to the adjacency lists if and only if the call is the first one
connecting the pair `{u, v}`.  With `cap = 0` (allowed by the claim's
`cap >= 0` domain) the code's actual guard
`capacity[u][v] == 0 && capacity[v][u] == 0` still holds on the second
call, so both of two successive `addEdge(0,1,0)` calls append: node 0's
adjacency list ends up `[1, 1]`, although at most one call can be the
first to connect the pair. -/
theorem C4_addEdge_cex :
    ((MaxFlow.mk0 2).addEdge 0 1 0).adj 0 = [1]
    ∧ (((MaxFlow.mk0 2).addEdge 0 1 0).addEdge 0 1 0).adj 0 = [1, 1] := by decide

/-- Claim C4, amended.  For distinct node ids, `addEdge(u, v, cap)`
always adds `cap` to `residual[u][v]`, leaves `residual[v][u]` (and
every other slot) unchanged, and appends `v` to `u`'s adjacency list and
`u` to `v`'s exactly when `residual[u][v] = residual[v][u] = 0` at the
time of the call — that is, when every earlier call on the pair carried
capacity 0; when all capacities are positive this is precisely the first
call connecting the pair. -/
theorem C4_addEdge (m : MaxFlow) (u v : Nat) (c : Int) (huv : u ≠ v) :
    ((m.addEdge u v c).capacity u v = m.capacity u v + c)
    ∧ ((m.addEdge u v c).capacity v u = m.capacity v u)
    ∧ (∀ a b, ¬ (a = u ∧ b = v) → (m.addEdge u v c).capacity a b = m.capacity a b)
    ∧ ((m.capacity u v = 0 ∧ m.capacity v u = 0) →
        ((m.addEdge u v c).adj u = m.adj u ++ [v]
          ∧ (m.addEdge u v c).adj v = m.adj v ++ [u]
          ∧ ∀ w, w ≠ u → w ≠ v → (m.addEdge u v c).adj w = m.adj w))
    ∧ (¬ (m.capacity u v = 0 ∧ m.capacity v u = 0) →
        (m.addEdge u v c).adj = m.adj) := by
  refine ⟨?_, ?_, ?_, ?_, ?_⟩
  · simp [MaxFlow.addEdge, setCap]
  · simp [MaxFlow.addEdge, setCap, Ne.symm huv]
  · intro a b hab
    simp [MaxFlow.addEdge, setCap, hab]
  · intro h
    refine ⟨?_, ?_, ?_⟩
    · simp [MaxFlow.addEdge, h, Function.update_noteq huv, Function.update_same]
    · simp [MaxFlow.addEdge, h, Function.update_noteq (Ne.symm huv), Function.update_same]
    · intro w hwu hwv
      simp [MaxFlow.addEdge, h, Function.update_noteq hwu, Function.update_noteq hwv]
  · intro h
    simp [MaxFlow.addEdge, h]

theorem C4_addEdge_witness :
    ((MaxFlow.mk0 2).addEdge 0 1 3).capacity 0 1 = (MaxFlow.mk0 2).capacity 0 1 + 3 :=
  (C4_addEdge (MaxFlow.mk0 2) 0 1 3 (by decide)).1

/-- Claim C7, counterexample.  With source 0 and sink 1 disconnected
(the only corridor joins habitats 2 and 3, capacity 7), `solve` does
return flow 0 without error, but the Used-Edge Extractor does not return
the empty list: the untouched corridor still has reverse residual
`capacity[3][2] = 7 > 0` (the driver initialised both directions), so it
is reported. -/
theorem C7_disconnected_cex :
    (WCsolve ⟨4, [], [((2, 3), 7)], 0, 1⟩).1.1 = 0
    ∧ (WCsolve ⟨4, [], [((2, 3), 7)], 0, 1⟩).1.2 = [((2, 3), 7)]
    ∧ (WCsolve ⟨4, [], [((2, 3), 7)], 0, 1⟩).1.2 ≠ [] := by decide

/-- Claim C10: the Reduction Driver's `solve` writes no member of the
network object — it builds a fresh `MaxFlow` engine on every call — so
the post-state equals the pre-state (corridor map, habitat locations,
source and sink ids all unchanged) and a second consecutive call returns
the identical (flow value, used-edge list) pair. -/
theorem C10_solve_frame (w : WildlifeCorridorNetwork) :
    (WCsolve w).2 = w ∧ (WCsolve ((WCsolve w).2)).1 = (WCsolve w).1 :=
  ⟨rfl, rfl⟩

/-! ## The capacity rule and the network builder -/

theorem truncToInt_of_nonneg {x : Real} (h : 0 ≤ x) : truncToInt x = ⌊x⌋ :=
  if_pos h

theorem calculateCorridorCapacity_of_far {locs : List (Real × Real)} {h1 h2 : Nat}
    {maxDist : Real} (h : maxDist < distance locs h1 h2) :
    calculateCorridorCapacity locs h1 h2 maxDist = 0 := by
  simp [calculateCorridorCapacity, h]

theorem calculateCorridorCapacity_of_near {locs : List (Real × Real)} {h1 h2 : Nat}
    {maxDist : Real} (h : ¬ maxDist < distance locs h1 h2) :
    calculateCorridorCapacity locs h1 h2 maxDist
      = max 1 (truncToInt (100 * (1 - distance locs h1 h2 / maxDist)
          * (1 - distance locs h1 h2 / maxDist))) := by
  simp [calculateCorridorCapacity, h]

theorem calculateCorridorCapacity_pos_iff (locs : List (Real × Real)) (h1 h2 : Nat)
    (maxDist : Real) :
    0 < calculateCorridorCapacity locs h1 h2 maxDist
      ↔ distance locs h1 h2 ≤ maxDist := by
  by_cases h : maxDist < distance locs h1 h2
  · rw [calculateCorridorCapacity_of_far h]
    simp [not_le.2 h]
  · rw [calculateCorridorCapacity_of_near h, not_lt] at *
    have h1 : (1 : Int) ≤ max 1 (truncToInt (100 * (1 - distance locs h1 h2 / maxDist)
        * (1 - distance locs h1 h2 / maxDist))) := le_max_left _ _
    constructor
    · intro _; exact h
    · intro _; omega

/-- Claim C3: for every pair of habitat locations and every positive
`maxDist`, the capacity rule returns 0 exactly when the Euclidean
distance `d` exceeds `maxDist`; otherwise it returns
`max 1 ⌊100 * (1 - d / maxDist)^2⌋`, which is at least 1.  (Purity and
determinism hold by construction: the rule is a function of its
arguments only; C++ `double` arithmetic is modelled as exact real
arithmetic, and the `(int)` cast is floor here because its operand is a
nonnegative square.) -/
theorem C3_capacity_rule (locs : List (Real × Real)) (h1 h2 : Nat) (maxDist : Real)
    (_hmd : 0 < maxDist) :
    (calculateCorridorCapacity locs h1 h2 maxDist = 0
        ↔ maxDist < distance locs h1 h2)
    ∧ (distance locs h1 h2 ≤ maxDist →
        calculateCorridorCapacity locs h1 h2 maxDist
            = max 1 ⌊100 * (1 - distance locs h1 h2 / maxDist) ^ 2⌋
          ∧ 1 ≤ calculateCorridorCapacity locs h1 h2 maxDist) := by
  have hsq : (0 : Real) ≤ 100 * (1 - distance locs h1 h2 / maxDist)
      * (1 - distance locs h1 h2 / maxDist) := by
    have := mul_self_nonneg (1 - distance locs h1 h2 / maxDist)
    linarith
  constructor
  · constructor
    · intro h0
      by_contra hgt
      rw [calculateCorridorCapacity_of_near hgt] at h0
      have h1 : (1 : Int) ≤ max 1 (truncToInt (100 * (1 - distance locs h1 h2 / maxDist)
          * (1 - distance locs h1 h2 / maxDist))) := le_max_left _ _
      omega
    · intro hgt
      exact calculateCorridorCapacity_of_far hgt
  · intro hle
    have hnlt : ¬ maxDist < distance locs h1 h2 := not_lt.2 hle
    rw [calculateCorridorCapacity_of_near hnlt]
    constructor
    · rw [truncToInt_of_nonneg hsq]
      congr 2
      ring
    · exact le_max_left _ _

theorem C3_capacity_rule_witness :
    calculateCorridorCapacity [] 0 1 1 = 0 ↔ (1 : Real) < distance [] 0 1 :=
  (C3_capacity_rule [] 0 1 1 one_pos).1

/-- Generic membership description for the pair-table pattern shared by
the Network Builder and the Used-Edge Extractor: a flattened scan over
`i < j < n` collecting `F i j`. -/
theorem mem_pairTable (n : Nat) (F : Nat → Nat → Option ((Nat × Nat) × Int))
    (hF : ∀ i j e, F i j = some e → e.1 = (i, j)) (a b : Nat) (c : Int) :
    ((a, b), c) ∈ ((List.range n).map fun i =>
        ((List.range n).filter fun j => i < j).filterMap (F i)).flatten
      ↔ a < n ∧ b < n ∧ a < b ∧ F a b = some ((a, b), c) := by
  constructor
  · intro h
    rcases List.mem_flatten.1 h with ⟨l, hl, hx⟩
    rcases List.mem_map.1 hl with ⟨i, hi, rfl⟩
    rcases List.mem_filterMap.1 hx with ⟨j, hj, heq⟩
    have hjr : j ∈ List.range n := (List.mem_filter.1 hj).1
    have hij : i < j := by
      have := (List.mem_filter.1 hj).2
      simpa using this
    have hx1 : ((a, b), c).1 = (i, j) := hF i j _ heq
    simp only [Prod.mk.injEq] at hx1
    obtain ⟨rfl, rfl⟩ := hx1
    rw [List.mem_range] at hi hjr
    exact ⟨hi, hjr, hij, heq⟩
  · rintro ⟨ha, hb, hab, hsome⟩
    apply List.mem_flatten.2
    refine ⟨_, List.mem_map.2 ⟨a, List.mem_range.2 ha, rfl⟩, ?_⟩
    exact List.mem_filterMap.2
      ⟨b, List.mem_filter.2 ⟨List.mem_range.2 hb, by simpa using hab⟩, hsome⟩

/-- Keys produced by the pair-table pattern are pairwise distinct. -/
theorem pairTable_fst_nodup (n : Nat) (F : Nat → Nat → Option ((Nat × Nat) × Int))
    (hF : ∀ i j e, F i j = some e → e.1 = (i, j)) :
    ((((List.range n).map fun i =>
        ((List.range n).filter fun j => i < j).filterMap (F i)).flatten).map
      Prod.fst).Nodup := by
  rw [List.map_flatten, List.map_map, List.nodup_flatten]
  constructor
  · intro l hl
    rcases List.mem_map.1 hl with ⟨i, _, rfl⟩
    simp only [Function.comp_apply]
    rw [List.map_filterMap]
    apply List.Nodup.filterMap
    · intro a a' b hb hb'
      rw [Option.mem_def, Option.map_eq_some'] at hb hb'
      obtain ⟨e, he, rfl⟩ := hb
      obtain ⟨e', he', hfst⟩ := hb'
      rw [hF i a e he] at hfst
      rw [hF i a' e' he'] at hfst
      simp only [Prod.mk.injEq] at hfst
      omega
    · exact (List.nodup_range (n := n)).filter _
  · rw [List.pairwise_map]
    refine (List.pairwise_lt_range n).imp ?_
    intro i i' hii'
    intro z hz hz'
    simp only [Function.comp_apply] at hz hz'
    rw [List.map_filterMap] at hz hz'
    rcases List.mem_filterMap.1 hz with ⟨a, _, ha⟩
    rcases List.mem_filterMap.1 hz' with ⟨a', _, ha'⟩
    simp only [Option.map_eq_some'] at ha ha'
    obtain ⟨e, he, rfl⟩ := ha
    obtain ⟨e', he', hz1⟩ := ha'
    rw [hF i a e he] at hz1
    rw [hF i' a' e' he'] at hz1
    simp only [Prod.mk.injEq] at hz1
    omega

/-- The builder's inner table function maps `(i, j)` to a value keyed by
`(i, j)`. -/
theorem buildTable_key (locs : List (Real × Real)) (maxDist : Real) :
    ∀ i j e, (fun i j =>
        let c := calculateCorridorCapacity locs i j maxDist
        if 0 < c then some ((i, j), c) else none) i j = some e → e.1 = (i, j) := by
  intro i j e h
  simp only at h
  by_cases hc : 0 < calculateCorridorCapacity locs i j maxDist
  · rw [if_pos hc] at h
    cases h
    rfl
  · rw [if_neg hc] at h
    cases h

/-- Membership in the output of the Network Builder. -/
theorem mem_buildCorridorNetwork (n : Nat) (locs : List (Real × Real))
    (maxDist : Real) (i j : Nat) (c : Int) :
    ((i, j), c) ∈ buildCorridorNetwork n locs maxDist
      ↔ i < n ∧ j < n ∧ i < j ∧ 0 < c
        ∧ c = calculateCorridorCapacity locs i j maxDist := by
  have base := mem_pairTable n
    (fun i j =>
      let c := calculateCorridorCapacity locs i j maxDist
      if 0 < c then some ((i, j), c) else none)
    (buildTable_key locs maxDist) i j c
  refine (base.trans ?_)
  simp only
  constructor
  · rintro ⟨hin, hjn, hij, hsome⟩
    by_cases hc : 0 < calculateCorridorCapacity locs i j maxDist
    · rw [if_pos hc] at hsome
      simp only [Option.some.injEq, Prod.mk.injEq] at hsome
      obtain ⟨-, rfl⟩ := hsome
      exact ⟨hin, hjn, hij, hc, rfl⟩
    · rw [if_neg hc] at hsome
      cases hsome
  · rintro ⟨hin, hjn, hij, hc, rfl⟩
    exact ⟨hin, hjn, hij, by rw [if_pos hc]⟩

/-- Claim C5: given `N` node locations and a `maxDist` threshold, the
Network Builder's mapping contains `((i, j), c)` exactly for the pairs
`i < j < N` whose distance is at most `maxDist`, with `c` the capacity
rule's value; every stored capacity is strictly positive (far pairs are
omitted, not stored as zero); and each unordered pair occurs at most
once (the key list has no duplicates).  The builder does not mutate the
locations: it is a function of them. -/
theorem C5_network_builder (n : Nat) (locs : List (Real × Real)) (maxDist : Real)
    (_hmd : 0 < maxDist) :
    (∀ i j c, ((i, j), c) ∈ buildCorridorNetwork n locs maxDist
        ↔ i < n ∧ j < n ∧ i < j ∧ distance locs i j ≤ maxDist
          ∧ c = calculateCorridorCapacity locs i j maxDist)
    ∧ (∀ i j c, ((i, j), c) ∈ buildCorridorNetwork n locs maxDist → 0 < c)
    ∧ ((buildCorridorNetwork n locs maxDist).map Prod.fst).Nodup := by
  refine ⟨?_, ?_, ?_⟩
  · intro i j c
    rw [mem_buildCorridorNetwork]
    constructor
    · rintro ⟨hin, hjn, hij, hc, rfl⟩
      exact ⟨hin, hjn, hij, (calculateCorridorCapacity_pos_iff locs i j maxDist).1 hc, rfl⟩
    · rintro ⟨hin, hjn, hij, hd, rfl⟩
      exact ⟨hin, hjn, hij, (calculateCorridorCapacity_pos_iff locs i j maxDist).2 hd, rfl⟩
  · intro i j c hmem
    exact ((mem_buildCorridorNetwork n locs maxDist i j c).1 hmem).2.2.2.1
  · exact pairTable_fst_nodup n _ (buildTable_key locs maxDist)

theorem C5_network_builder_witness :
    ((buildCorridorNetwork 1 [] 1).map Prod.fst).Nodup :=
  (C5_network_builder 1 [] 1 one_pos).2.2

/-! ## Disconnected source and sink -/

/-- `addEdge` and hence the driver's corridor loop leave the node count
unchanged. -/
theorem addCorridors_n (n : Nat) (entries : List ((Nat × Nat) × Int)) :
    (addCorridors n entries).n = n := by
  have key : ∀ (es : List ((Nat × Nat) × Int)) (m : MaxFlow),
      (es.foldl (fun m e => (m.addEdge e.1.1 e.1.2 e.2).addEdge e.1.2 e.1.1 e.2) m).n
        = m.n := by
    intro es
    induction es with
    | nil => intro m; rfl
    | cons e es ih => intro m; rw [List.foldl_cons, ih]; rfl
  exact key entries (MaxFlow.mk0 n)

/-- When the very first BFS fails, the `maxflow` loop exits at once:
flow 0, residual matrix untouched. -/
theorem maxflow_of_bfs_false (m : MaxFlow) (s t : Nat)
    (h : (bfs m.n m.capacity m.adj s t).1 = false) :
    m.maxflow s t = (0, m.capacity) := by
  unfold MaxFlow.maxflow maxflowFuel
  simp only [maxflowAux]
  rw [h]
  simp

/-- The extractor's inner table function maps `(i, j)` to a value keyed
by `(i, j)`. -/
theorem usedTable_key (cap : Nat → Nat → Int) :
    ∀ i j e, (fun i j =>
        if 0 < cap j i then some ((i, j), cap j i) else none) i j = some e
      → e.1 = (i, j) := by
  intro i j e h
  simp only at h
  by_cases hc : 0 < cap j i
  · rw [if_pos hc] at h
    cases h
    rfl
  · rw [if_neg hc] at h
    cases h

/-- Membership in the output of the Used-Edge Extractor. -/
theorem mem_getUsedCorridors (n : Nat) (cap : Nat → Nat → Int) (i j : Nat) (c : Int) :
    ((i, j), c) ∈ getUsedCorridors n cap
      ↔ i < n ∧ j < n ∧ i < j ∧ 0 < c ∧ c = cap j i := by
  have base := mem_pairTable n
    (fun i j => if 0 < cap j i then some ((i, j), cap j i) else none)
    (usedTable_key cap) i j c
  refine (base.trans ?_)
  constructor
  · rintro ⟨hin, hjn, hij, hsome⟩
    by_cases hc : 0 < cap j i
    · rw [if_pos hc] at hsome
      simp only [Option.some.injEq, Prod.mk.injEq] at hsome
      obtain ⟨-, rfl⟩ := hsome
      exact ⟨hin, hjn, hij, hc, rfl⟩
    · rw [if_neg hc] at hsome
      cases hsome
  · rintro ⟨hin, hjn, hij, hc, rfl⟩
    exact ⟨hin, hjn, hij, by rw [if_pos hc]⟩

/-- Claim C7, amended.  If the sink is unreachable from the source over
positive residual arcs, `solve` returns flow 0 without any error
condition, and the Used-Edge Extractor — rather than returning the empty
list — reports exactly the corridors of the (untouched) network, each
with its original capacity: the driver initialised every reverse slot
`residual[j][i]` to the corridor capacity, so the extractor's
`residual[j][i] > 0` test selects every corridor.  In particular the
list is empty iff there are no corridors at all. -/
theorem C7_disconnected (n s t : Nat) (locs : List (Real × Real))
    (entries : List ((Nat × Nat) × Int))
    (hkeys : ∀ e ∈ entries, e.1.1 < e.1.2 ∧ e.1.2 < n ∧ 0 < e.2)
    (hnd : (entries.map Prod.fst).Nodup)
    (hdisc : (bfs n (addCorridors n entries).capacity
        (addCorridors n entries).adj s t).1 = false) :
    (WCsolve ⟨n, locs, entries, s, t⟩).1.1 = 0
    ∧ ∀ i j c, (((i, j), c) ∈ (WCsolve ⟨n, locs, entries, s, t⟩).1.2
        ↔ ((i, j), c) ∈ entries) := by
  have hdisc' : (bfs (addCorridors n entries).n (addCorridors n entries).capacity
      (addCorridors n entries).adj s t).1 = false := by
    rw [addCorridors_n]; exact hdisc
  have hrun : (addCorridors n entries).maxflow s t
      = (0, (addCorridors n entries).capacity) :=
    maxflow_of_bfs_false (addCorridors n entries) s t hdisc'
  have hcap : ∀ i j : Nat, i < j →
      (addCorridors n entries).capacity j i
        = (entries.map fun e => if e.1 = (i, j) then e.2 else 0).sum := by
    intro i j hij
    rw [addCorridors_capacity, list_sum_map_add]
    have hzero : (entries.map fun e => if e.1 = (j, i) then e.2 else 0).sum = 0 := by
      apply sum_if_key_zero
      intro e he hji
      have := (hkeys e he).1
      rw [hji] at this
      omega
    rw [hzero]
    ring
  have hfst : ((addCorridors n entries).maxflow s t).1 = 0 := by rw [hrun]
  have hsnd : ((addCorridors n entries).maxflow s t).2
      = (addCorridors n entries).capacity := by rw [hrun]
  constructor
  · exact hfst
  · intro i j c
    show ((i, j), c) ∈ getUsedCorridors n ((addCorridors n entries).maxflow s t).2 ↔ _
    rw [hsnd]
    rw [mem_getUsedCorridors]
    constructor
    · rintro ⟨hin, hjn, hij, hc, rfl⟩
      rw [hcap i j hij] at hc ⊢
      by_cases hk : ∃ e ∈ entries, e.1 = (i, j)
      · obtain ⟨⟨k, cv⟩, he, hke⟩ := hk
        simp only at hke
        subst hke
        rw [sum_if_key_eq entries (i, j) cv hnd he]
        exact he
      · push_neg at hk
        rw [sum_if_key_zero entries (i, j) hk] at hc
        exact absurd hc (lt_irrefl 0)
    · intro hmem
      obtain ⟨hij, hjn, hc⟩ := hkeys _ hmem
      simp only at hij hjn hc
      refine ⟨by omega, hjn, hij, hc, ?_⟩
      rw [hcap i j hij, sum_if_key_eq entries (i, j) c hnd hmem]

theorem C7_disconnected_witness :
    (WCsolve ⟨4, [], [((2, 3), 7)], 0, 1⟩).1.1 = 0 :=
  (C7_disconnected 4 0 1 [] [((2, 3), 7)] (by decide) (by decide) (by decide)).1

/-! ## BFS invariants -/

/-- Recording a fresh predecessor preserves the parent invariant. -/
theorem ParentInv.set_step {n : Nat} {cap : Nat → Nat → Int}
    {adj : Nat → List Nat} {source : Nat}
    {parent : List Int} (h : ParentInv n cap adj source parent)
    {u v : Nat} (hu : u < n) (huvis : parent.getD u 0 ≠ -1)
    (hv : parent.getD v 0 = -1) (hcap : 0 < cap u v) (hmem : v ∈ adj u) :
    ParentInv n cap adj source (parent.set v (u : Int)) := by
  have hvlen : v < parent.length := getD_lt_length hv
  have hvn : v < n := by rw [← h.len]; exact hvlen
  have hvsrc : v ≠ source := by
    intro hvs
    rw [hvs, h.src_vis] at hv
    omega
  have huv : u ≠ v := by
    intro h'
    rw [h'] at huvis
    exact huvis hv
  obtain ⟨r, hpred, hrbnd⟩ := h.rank
  have hcnt := count_set_of_get parent v (u : Int) (-1) hvlen
  rw [if_pos hv, if_neg (by omega : ¬ (u : Int) = -1)] at hcnt
  refine ⟨by rw [List.length_set]; exact h.len, h.src_lt, ?_, ?_⟩
  · rw [getD_set_ne parent v source (u : Int) (Ne.symm hvsrc)]
    exact h.src_vis
  · refine ⟨Function.update r v (r u + 1), ?_, ?_⟩
    · intro w hwn hwsrc hwvis
      by_cases hwv : w = v
      · subst hwv
        refine ⟨u, ?_, hu, hcap, hmem, ?_, ?_⟩
        · exact getD_set_self parent w (u : Int) hvlen
        · rw [getD_set_ne parent w u (u : Int) huv]
          exact huvis
        · rw [Function.update_same, Function.update_noteq huv]
          omega
      · rw [getD_set_ne parent v w (u : Int) hwv] at hwvis
        obtain ⟨u₀, hval, hu₀n, hcap₀, hmem₀, hu₀vis, hr₀⟩ := hpred w hwn hwsrc hwvis
        have hu₀v : u₀ ≠ v := by
          intro h'
          rw [h'] at hu₀vis
          exact hu₀vis hv
        refine ⟨u₀, ?_, hu₀n, hcap₀, hmem₀, ?_, ?_⟩
        · rw [getD_set_ne parent v w (u : Int) hwv]; exact hval
        · rw [getD_set_ne parent v u₀ (u : Int) hu₀v]; exact hu₀vis
        · rw [Function.update_noteq hu₀v, Function.update_noteq hwv]
          exact hr₀
    · intro w hwn hwvis
      by_cases hwv : w = v
      · subst hwv
        rw [Function.update_same]
        have := hrbnd u hu huvis
        omega
      · rw [getD_set_ne parent v w (u : Int) hwv] at hwvis
        rw [Function.update_noteq hwv]
        have := hrbnd w hwn hwvis
        omega

/-- Scanning one adjacency list preserves the parent invariant; visited
entries keep their values, new queue entries are freshly discovered
nodes below `n`, a `true` verdict means the sink was just discovered
(away from the source), and a `false` verdict leaves the sink slot
untouched, discovers every positive neighbour of `u`, and queues exactly
the nodes discovered by this scan. -/
theorem visitNeighbors_inv (n : Nat) (cap : Nat → Nat → Int) (adj : Nat → List Nat)
    (source sink u : Nat) (fl : Int) (hu : u < n) :
    ∀ (vs : List Nat) (parent : List Int),
      ParentInv n cap adj source parent →
      parent.getD u 0 ≠ -1 →
      (∀ v ∈ vs, v ∈ adj u) →
      ParentInv n cap adj source (visitNeighbors cap sink u fl vs parent).1
      ∧ (∀ w, parent.getD w 0 ≠ -1 →
          (visitNeighbors cap sink u fl vs parent).1.getD w 0 = parent.getD w 0)
      ∧ (∀ p ∈ (visitNeighbors cap sink u fl vs parent).2.1,
          p.1 < n ∧ (visitNeighbors cap sink u fl vs parent).1.getD p.1 0 ≠ -1)
      ∧ ((visitNeighbors cap sink u fl vs parent).2.2 = true →
          (visitNeighbors cap sink u fl vs parent).1.getD sink 0 ≠ -1
          ∧ sink < n ∧ sink ≠ source)
      ∧ ((visitNeighbors cap sink u fl vs parent).2.2 = false →
          (visitNeighbors cap sink u fl vs parent).1.getD sink 0 = parent.getD sink 0)
      ∧ ((visitNeighbors cap sink u fl vs parent).2.2 = false →
          ∀ v ∈ vs, 0 < cap u v →
            (visitNeighbors cap sink u fl vs parent).1.getD v 0 ≠ -1)
      ∧ (∀ p ∈ (visitNeighbors cap sink u fl vs parent).2.1,
          parent.getD p.1 0 = -1)
      ∧ ((visitNeighbors cap sink u fl vs parent).2.2 = false →
          ∀ w, parent.getD w 0 = -1 →
            (visitNeighbors cap sink u fl vs parent).1.getD w 0 ≠ -1 →
            w ∈ (visitNeighbors cap sink u fl vs parent).2.1.map Prod.fst) := by
  intro vs
  induction vs with
  | nil =>
    intro parent hinv _ _
    refine ⟨hinv, fun w _ => rfl, by simp [visitNeighbors], ?_, fun _ => rfl, ?_,
      by simp [visitNeighbors], ?_⟩
    · intro hfound
      simp [visitNeighbors] at hfound
    · intro _ v hv
      simp at hv
    · intro _ w hw hw'
      exact absurd hw hw'
  | cons v vs ih =>
    intro parent hinv huvis hvs
    have hvadj : v ∈ adj u := hvs v (List.mem_cons_self _ _)
    have hvs' : ∀ w ∈ vs, w ∈ adj u := fun w hw => hvs w (List.mem_cons_of_mem _ hw)
    by_cases hg : parent.getD v 0 = -1 ∧ 0 < cap u v
    · have hvlen : v < parent.length := getD_lt_length hg.1
      have hvn : v < n := by rw [← hinv.len]; exact hvlen
      have hvsrc : v ≠ source := by
        intro hvsq
        rw [hvsq, hinv.src_vis] at hg
        exact absurd hg.1 (by omega)
      have hinv' : ParentInv n cap adj source (parent.set v (u : Int)) :=
        hinv.set_step hu huvis hg.1 hg.2 hvadj
      have hvvis' : (parent.set v (u : Int)).getD v 0 ≠ -1 := by
        rw [getD_set_self parent v (u : Int) hvlen]
        omega
      have hmono' : ∀ w, parent.getD w 0 ≠ -1 →
          (parent.set v (u : Int)).getD w 0 = parent.getD w 0 := by
        intro w hwvis
        have hwv : w ≠ v := by
          intro h'
          rw [h'] at hwvis
          exact hwvis hg.1
        exact getD_set_ne parent v w (u : Int) hwv
      by_cases hs : v = sink
      · have hres : visitNeighbors cap sink u fl (v :: vs) parent
            = (parent.set v (u : Int), [], true) := by
          simp only [visitNeighbors]
          rw [if_pos hg, if_pos hs]
        rw [hres]
        refine ⟨hinv', hmono', by simp, ?_, ?_, ?_, by simp, ?_⟩
        · intro _
          rw [← hs]
          exact ⟨hvvis', hvn, hvsrc⟩
        · intro h'; cases h'
        · intro h'; cases h'
        · intro h'; cases h'
      · have hres : visitNeighbors cap sink u fl (v :: vs) parent
            = ((visitNeighbors cap sink u fl vs (parent.set v (u : Int))).1,
              (v, min fl (cap u v))
                :: (visitNeighbors cap sink u fl vs (parent.set v (u : Int))).2.1,
              (visitNeighbors cap sink u fl vs (parent.set v (u : Int))).2.2) := by
          simp only [visitNeighbors]
          rw [if_pos hg, if_neg hs]
        rw [hres]
        have huvis' : (parent.set v (u : Int)).getD u 0 ≠ -1 := by
          rw [hmono' u huvis]; exact huvis
        obtain ⟨ih1, ih2, ih3, ih4, ih5, ih6, ih7, ih8⟩ :=
          ih (parent.set v (u : Int)) hinv' huvis' hvs'
        refine ⟨ih1, ?_, ?_, ih4, ?_, ?_, ?_, ?_⟩
        · intro w hwvis
          rw [ih2 w (by rw [hmono' w hwvis]; exact hwvis), hmono' w hwvis]
        · intro p hp
          rcases List.mem_cons.1 hp with hp | hp
          · rw [hp]
            exact ⟨hvn, by rw [ih2 v hvvis']; exact hvvis'⟩
          · exact ih3 p hp
        · intro hfalse
          rw [ih5 hfalse]
          exact getD_set_ne parent v sink (u : Int) (fun h' => hs h'.symm)
        · intro hfalse w hw hcapw
          rcases List.mem_cons.1 hw with hw | hw
          · rw [hw]
            rw [ih2 v hvvis']
            exact hvvis'
          · exact ih6 hfalse w hw hcapw
        · intro p hp
          rcases List.mem_cons.1 hp with hp | hp
          · rw [hp]
            exact hg.1
          · have h7 := ih7 p hp
            have hpv : p.1 ≠ v := by
              intro hq
              rw [hq] at h7
              exact hvvis' h7
            rw [getD_set_ne parent v p.1 (u : Int) hpv] at h7
            exact h7
        · intro hfalse w hw hw'
          rw [List.map_cons]
          by_cases hwv : w = v
          · rw [hwv]
            exact List.mem_cons_self _ _
          · have hw2 : (parent.set v (u : Int)).getD w 0 = -1 := by
              rw [getD_set_ne parent v w (u : Int) hwv]
              exact hw
            exact List.mem_cons_of_mem _ (ih8 hfalse w hw2 hw')
    · have hres : visitNeighbors cap sink u fl (v :: vs) parent
          = visitNeighbors cap sink u fl vs parent := by
        simp only [visitNeighbors]
        rw [if_neg hg]
      rw [hres]
      obtain ⟨ih1, ih2, ih3, ih4, ih5, ih6, ih7, ih8⟩ := ih parent hinv huvis hvs'
      refine ⟨ih1, ih2, ih3, ih4, ih5, ?_, ih7, ih8⟩
      intro hfalse w hw hcapw
      rcases List.mem_cons.1 hw with hw | hw
      · have hwvis : parent.getD w 0 ≠ -1 := by
          intro hcon
          rw [hw] at hcon hcapw
          exact hg ⟨hcon, hcapw⟩
        rw [ih2 w hwvis]
        exact hwvis
      · exact ih6 hfalse w hw hcapw

/-- The worklist loop preserves the parent invariant; when it reports
`true` the sink has been discovered, away from the source and below `n`. -/
theorem bfsAux_inv (n : Nat) (cap : Nat → Nat → Int) (adj : Nat → List Nat)
    (source sink : Nat) :
    ∀ (fuel : Nat) (q : List (Nat × Int)) (parent : List Int),
      ParentInv n cap adj source parent →
      (∀ p ∈ q, p.1 < n ∧ parent.getD p.1 0 ≠ -1) →
      ParentInv n cap adj source (bfsAux cap adj sink fuel q parent).2
      ∧ ((bfsAux cap adj sink fuel q parent).1 = true →
          (bfsAux cap adj sink fuel q parent).2.getD sink 0 ≠ -1
          ∧ sink < n ∧ sink ≠ source) := by
  intro fuel
  induction fuel with
  | zero =>
    intro q parent hinv _
    exact ⟨hinv, fun h => by simp [bfsAux] at h⟩
  | succ fuel ih =>
    intro q parent hinv hq
    cases q with
    | nil =>
      exact ⟨hinv, fun h => by simp [bfsAux] at h⟩
    | cons p rest =>
      obtain ⟨u, fl⟩ := p
      obtain ⟨hun, huvis⟩ := hq (u, fl) (List.mem_cons_self _ _)
      obtain ⟨h1, h2, h3, h4, h5, h6, h7, h8⟩ :=
        visitNeighbors_inv n cap adj source sink u fl hun (adj u) parent hinv huvis
          (fun _ hv => hv)
      by_cases hf : (visitNeighbors cap sink u fl (adj u) parent).2.2 = true
      · have hres : bfsAux cap adj sink (fuel + 1) ((u, fl) :: rest) parent
            = (true, (visitNeighbors cap sink u fl (adj u) parent).1) := by
          simp only [bfsAux]
          rw [if_pos hf]
        rw [hres]
        exact ⟨h1, fun _ => h4 hf⟩
      · have hres : bfsAux cap adj sink (fuel + 1) ((u, fl) :: rest) parent
            = bfsAux cap adj sink fuel
                (rest ++ (visitNeighbors cap sink u fl (adj u) parent).2.1)
                (visitNeighbors cap sink u fl (adj u) parent).1 := by
          simp only [bfsAux]
          rw [if_neg hf]
        rw [hres]
        apply ih
        · exact h1
        · intro p hp
          rcases List.mem_append.1 hp with hp | hp
          · obtain ⟨hpn, hpvis⟩ := hq p (List.mem_cons_of_mem _ hp)
            exact ⟨hpn, by rw [h2 p.1 hpvis]; exact hpvis⟩
          · exact h3 p hp

/-- After `bfs` the parent array satisfies the invariant, and a `true`
verdict means the sink was discovered. -/
theorem bfs_inv (n : Nat) (cap : Nat → Nat → Int) (adj : Nat → List Nat)
    (source sink : Nat) (hs : source < n) :
    ParentInv n cap adj source (bfs n cap adj source sink).2
    ∧ ((bfs n cap adj source sink).1 = true →
        (bfs n cap adj source sink).2.getD sink 0 ≠ -1
        ∧ sink < n ∧ sink ≠ source) := by
  have hslen : source < (List.replicate n (-1 : Int)).length := by
    rw [List.length_replicate]; exact hs
  have hsrcvis : ((List.replicate n (-1 : Int)).set source (source : Int)).getD source 0
      = (source : Int) := getD_set_self _ source _ hslen
  have hcnt : ((List.replicate n (-1 : Int)).set source (source : Int)).count (-1)
      = n - 1 := by
    have h := count_set_of_get (List.replicate n (-1)) source (source : Int) (-1) hslen
    rw [getD_replicate_lt n source (-1) hs] at h
    rw [if_pos rfl, if_neg (by omega : ¬ (source : Int) = -1)] at h
    have hrep : (List.replicate n (-1 : Int)).count (-1) = n := by
      simp
    omega
  have hinit : ParentInv n cap adj source
      ((List.replicate n (-1)).set source (source : Int)) := by
    refine ⟨by rw [List.length_set, List.length_replicate], hs, hsrcvis,
      ⟨fun _ => 0, ?_, ?_⟩⟩
    · intro v hvn hvsrc hvvis
      exfalso
      rw [getD_set_ne _ source v _ hvsrc] at hvvis
      rw [getD_replicate_lt n v (-1) hvn] at hvvis
      exact hvvis rfl
    · intro v hvn hvvis
      have h0 : (fun _ : Nat => (0 : Nat)) v = 0 := rfl
      rw [hcnt, h0]
      omega
  exact bfsAux_inv n cap adj source sink (n + 2) [(source, INT_MAX)] _ hinit
    (by
      intro p hp
      rcases List.mem_cons.1 hp with hp | hp
      · rw [hp]
        refine ⟨hs, ?_⟩
        rw [hsrcvis]
        omega
      · simp at hp)

/-- Walking the predecessor chain from a discovered node succeeds within
any bound exceeding the node's rank; the traversed arcs are in-range
positive-capacity arcs whose ranks strictly decrease towards the source,
no arc enters the source, the walked nodes are pairwise distinct, and
the arc tails are the arc heads shifted by one with the source appended
(the walk is one simple path ending at the source). -/
theorem chainArcs_spec (n : Nat) (cap : Nat → Nat → Int) (adj : Nat → List Nat)
    (source : Nat) (parent : List Int) (r : Nat → Nat)
    (hpred : ∀ v, v < n → v ≠ source → parent.getD v 0 ≠ -1 →
      ∃ u : Nat, parent.getD v 0 = (u : Int) ∧ u < n ∧ 0 < cap u v
        ∧ v ∈ adj u ∧ parent.getD u 0 ≠ -1 ∧ r u < r v) :
    ∀ (fuel v : Nat), v < n → (v = source ∨ parent.getD v 0 ≠ -1) → r v < fuel →
      ∃ arcs, chainArcs parent source fuel v = some arcs
        ∧ (∀ p ∈ arcs, p.1 < n ∧ p.2 < n ∧ 0 < cap p.1 p.2 ∧ p.2 ∈ adj p.1)
        ∧ (∀ p ∈ arcs, p.2 ≠ source ∧ r p.1 < r p.2 ∧ r p.2 ≤ r v)
        ∧ (arcs.map Prod.snd).Pairwise (fun x y => r y < r x)
        ∧ (v = source → arcs = [])
        ∧ (v ≠ source →
            arcs.map Prod.fst = (arcs.map Prod.snd).tail ++ [source]
            ∧ arcs.map Prod.snd = v :: (arcs.map Prod.snd).tail)
        ∧ (v ≠ source →
            ∃ w, (source, w) ∈ arcs ∧ ∀ p ∈ arcs, p.1 = source → p = (source, w)) := by
  intro fuel
  induction fuel with
  | zero =>
    intro v _ _ h
    exact absurd h (Nat.not_lt_zero _)
  | succ fuel ih =>
    intro v hvn hvd hrv
    by_cases hvs : v = source
    · refine ⟨[], ?_, by simp, by simp, by simp, fun _ => rfl, fun h => absurd hvs h,
        fun h => absurd hvs h⟩
      simp [chainArcs, hvs]
    · have hvvis : parent.getD v 0 ≠ -1 := hvd.resolve_left hvs
      obtain ⟨u, hval, hun, hcap, hadjv, huvis, hru⟩ := hpred v hvn hvs hvvis
      have hstep : chainArcs parent source (fuel + 1) v
          = match chainArcs parent source fuel u with
            | none => none
            | some arcs => some ((u, v) :: arcs) := by
        simp only [chainArcs]
        rw [if_neg hvs, hval]
        simp only [Int.toNat_natCast]
      obtain ⟨arcs', hsome', ha', hb', hc', hd', he', hf'⟩ :=
        ih u hun (Or.inr huvis) (by omega)
      refine ⟨(u, v) :: arcs', ?_, ?_, ?_, ?_, fun h => absurd h hvs, ?_, ?_⟩
      · rw [hstep, hsome']
      · intro p hp
        rcases List.mem_cons.1 hp with hp | hp
        · subst hp; exact ⟨hun, hvn, hcap, hadjv⟩
        · exact ha' p hp
      · intro p hp
        rcases List.mem_cons.1 hp with hp | hp
        · subst hp; exact ⟨hvs, hru, Nat.le_refl _⟩
        · obtain ⟨hps, hpr, hple⟩ := hb' p hp
          exact ⟨hps, hpr, by omega⟩
      · rw [List.map_cons, List.pairwise_cons]
        constructor
        · intro y hy
          rcases List.mem_map.1 hy with ⟨p, hp, rfl⟩
          have hle : r p.2 ≤ r u := (hb' p hp).2.2
          show r p.2 < r v
          omega
        · exact hc'
      · intro _
        by_cases hus : u = source
        · have harcs' : arcs' = [] := hd' hus
          subst harcs'
          constructor
          · simp [hus]
          · simp
        · obtain ⟨hfst', hsnd'⟩ := he' hus
          constructor
          · rw [List.map_cons, List.map_cons, List.tail_cons, hfst', hsnd']
            rfl
          · rw [List.map_cons, List.tail_cons]
      · intro _
        by_cases hus : u = source
        · have harcs' : arcs' = [] := hd' hus
          subst harcs'
          refine ⟨v, ?_, ?_⟩
          · rw [← hus]
            exact List.mem_cons_self _ _
          · intro p hp _
            rcases List.mem_cons.1 hp with hp | hp
            · rw [hp, hus]
            · simp at hp
        · obtain ⟨w, hwmem, huniq⟩ := hf' hus
          refine ⟨w, List.mem_cons_of_mem _ hwmem, ?_⟩
          intro p hp hps
          rcases List.mem_cons.1 hp with hp | hp
          · rw [hp] at hps
            simp only at hps
            exact absurd hps hus
          · exact huniq p hp hps


/-! ## Bottleneck and augmentation lemmas -/

theorem foldl_min_le_init (cap : Nat → Nat → Int) :
    ∀ (arcs : List (Nat × Nat)) (init : Int),
      arcs.foldl (fun acc q => min acc (cap q.1 q.2)) init ≤ init := by
  intro arcs
  induction arcs with
  | nil => intro init; exact le_refl _
  | cons q arcs ih =>
    intro init
    exact le_trans (ih (min init (cap q.1 q.2))) (min_le_left _ _)

theorem foldl_min_le_mem (cap : Nat → Nat → Int) :
    ∀ (arcs : List (Nat × Nat)) (init : Int) (p : Nat × Nat), p ∈ arcs →
      arcs.foldl (fun acc q => min acc (cap q.1 q.2)) init ≤ cap p.1 p.2 := by
  intro arcs
  induction arcs with
  | nil => intro init p hp; simp at hp
  | cons q arcs ih =>
    intro init p hp
    rcases List.mem_cons.1 hp with hp | hp
    · subst hp
      exact le_trans (foldl_min_le_init cap arcs _) (min_le_right _ _)
    · exact ih _ p hp

theorem foldl_min_pos (cap : Nat → Nat → Int) :
    ∀ (arcs : List (Nat × Nat)) (init : Int), 0 < init →
      (∀ p ∈ arcs, 0 < cap p.1 p.2) →
      0 < arcs.foldl (fun acc q => min acc (cap q.1 q.2)) init := by
  intro arcs
  induction arcs with
  | nil => intro init h _; exact h
  | cons q arcs ih =>
    intro init h hall
    exact ih _ (lt_min h (hall q (List.mem_cons_self _ _)))
      (fun p hp => hall p (List.mem_cons_of_mem _ hp))

theorem pathFlowOf_le (cap : Nat → Nat → Int) (arcs : List (Nat × Nat))
    (p : Nat × Nat) (hp : p ∈ arcs) : pathFlowOf cap arcs ≤ cap p.1 p.2 :=
  foldl_min_le_mem cap arcs INT_MAX p hp

theorem pathFlowOf_pos (cap : Nat → Nat → Int) (arcs : List (Nat × Nat))
    (h : ∀ p ∈ arcs, 0 < cap p.1 p.2) : 0 < pathFlowOf cap arcs :=
  foldl_min_pos cap arcs INT_MAX (by norm_num [INT_MAX]) h

/-- Pointwise description of a single arc update, for a proper arc. -/
theorem applyArc_eval (cap : Nat → Nat → Int) (a b : Nat) (hab : a ≠ b) (f : Int)
    (x y : Nat) :
    applyArc cap a b f x y
      = cap x y - (if x = a ∧ y = b then f else 0)
        + (if x = b ∧ y = a then f else 0) := by
  simp only [applyArc, setCap]
  have hba : ¬ (b = a ∧ a = b) := fun h => hab h.2
  rw [if_neg hba]
  by_cases h2 : x = b ∧ y = a
  · obtain ⟨hxb, hya⟩ := h2
    have hA : ¬ (x = a ∧ y = b) := by
      rintro ⟨hxa, -⟩
      exact hab (hxa ▸ hxb)
    rw [if_pos ⟨hxb, hya⟩, if_neg hA, if_pos ⟨hxb, hya⟩, hxb, hya]
    ring
  · rw [if_neg h2, if_neg h2]
    by_cases h1 : x = a ∧ y = b
    · obtain ⟨hxa, hyb⟩ := h1
      rw [if_pos ⟨hxa, hyb⟩, if_pos ⟨hxa, hyb⟩, hxa, hyb]
      ring
    · rw [if_neg h1, if_neg h1]
      ring

theorem if_mem_cons (q p : Nat × Nat) (l : List (Nat × Nat)) (f : Int)
    (hp : p ∉ l) :
    (if q ∈ p :: l then f else 0)
      = (if q = p then f else 0) + (if q ∈ l then f else 0) := by
  by_cases h : q = p
  · subst h
    rw [if_pos (List.mem_cons_self _ _), if_pos rfl, if_neg hp]
    ring
  · by_cases h' : q ∈ l
    · rw [if_pos (List.mem_cons_of_mem _ h'), if_neg h, if_pos h']
      ring
    · rw [if_neg (by
        intro hc
        rcases List.mem_cons.1 hc with hc | hc
        · exact h hc
        · exact h' hc), if_neg h, if_neg h']
      ring

/-- Pointwise description of a whole augmentation along a simple path:
each slot loses the bottleneck if its arc is on the path and gains it if
the reverse arc is. -/
theorem augment_eval (arcs : List (Nat × Nat)) (f : Int) :
    arcs.Nodup → (∀ p ∈ arcs, (p.2, p.1) ∉ arcs) →
    ∀ (cap : Nat → Nat → Int) (x y : Nat),
      augment cap arcs f x y
        = cap x y - (if (x, y) ∈ arcs then f else 0)
          + (if (y, x) ∈ arcs then f else 0) := by
  induction arcs with
  | nil => intro _ _ cap x y; simp [augment]
  | cons p arcs ih =>
    intro hnd hrev cap x y
    obtain ⟨a, b⟩ := p
    have hnd' : arcs.Nodup := (List.nodup_cons.1 hnd).2
    have hhead : (a, b) ∉ arcs := (List.nodup_cons.1 hnd).1
    have hba_notin : (b, a) ∉ (a, b) :: arcs := by
      have := hrev (a, b) (List.mem_cons_self _ _)
      exact this
    have hab : a ≠ b := by
      intro h
      subst h
      exact hba_notin (List.mem_cons_self _ _)
    have hba_tail : (b, a) ∉ arcs := fun hc => hba_notin (List.mem_cons_of_mem _ hc)
    have hrev' : ∀ p ∈ arcs, (p.2, p.1) ∉ arcs := by
      intro q hq hc
      exact hrev q (List.mem_cons_of_mem _ hq) (List.mem_cons_of_mem _ hc)
    have hstep : augment cap ((a, b) :: arcs) f x y
        = augment (applyArc cap a b f) arcs f x y := rfl
    rw [hstep, ih hnd' hrev' (applyArc cap a b f) x y]
    rw [applyArc_eval cap a b hab f x y]
    rw [if_mem_cons (x, y) (a, b) arcs f hhead]
    rw [if_mem_cons (y, x) (a, b) arcs f hhead]
    have e1 : ((x, y) = (a, b)) ↔ (x = a ∧ y = b) := by
      simp only [Prod.mk.injEq]
    have e2 : ((y, x) = (a, b)) ↔ (x = b ∧ y = a) := by
      simp only [Prod.mk.injEq]
      omega
    rw [if_congr e1 rfl rfl, if_congr e2 rfl rfl]
    ring

/-- An augmentation whose bottleneck fits under every forward arc keeps
the matrix non-negative. -/
theorem augment_nonneg (arcs : List (Nat × Nat)) (f : Int)
    (cap : Nat → Nat → Int)
    (hnd : arcs.Nodup) (hrev : ∀ p ∈ arcs, (p.2, p.1) ∉ arcs)
    (hle : ∀ p ∈ arcs, f ≤ cap p.1 p.2) (hf : 0 ≤ f)
    (hnn : ∀ x y, 0 ≤ cap x y) :
    ∀ x y, 0 ≤ augment cap arcs f x y := by
  intro x y
  rw [augment_eval arcs f hnd hrev cap x y]
  by_cases hxy : (x, y) ∈ arcs
  · have hyx : (y, x) ∉ arcs := hrev (x, y) hxy
    rw [if_pos hxy, if_neg hyx]
    have := hle (x, y) hxy
    simp only at this
    omega
  · rw [if_neg hxy]
    by_cases hyx : (y, x) ∈ arcs
    · rw [if_pos hyx]
      have := hnn x y
      omega
    · rw [if_neg hyx]
      have := hnn x y
      omega


/-- One successful BFS yields a predecessor chain whose arcs satisfy all
the properties the augmentation analysis needs: in range, positive
residual capacity, in the adjacency lists, not entering the source,
pairwise distinct, reverse-free, with exactly one arc leaving the
source, and forming one simple path from the source to the sink (the
arc heads are pairwise distinct, start at the sink, and the arc tails
are the heads shifted with the source appended). -/
theorem bfs_chain (n : Nat) (cap : Nat → Nat → Int) (adj : Nat → List Nat)
    (source sink : Nat) (hs : source < n)
    (hb : (bfs n cap adj source sink).1 = true) :
    ∃ arcs, chainArcs (bfs n cap adj source sink).2 source (n + 1) sink = some arcs
      ∧ arcs ≠ []
      ∧ (∀ p ∈ arcs, p.1 < n ∧ p.2 < n ∧ 0 < cap p.1 p.2 ∧ p.2 ∈ adj p.1)
      ∧ (∀ p ∈ arcs, p.2 ≠ source)
      ∧ arcs.Nodup
      ∧ (∀ p ∈ arcs, (p.2, p.1) ∉ arcs)
      ∧ (∃ w, (source, w) ∈ arcs ∧ ∀ p ∈ arcs, p.1 = source → p = (source, w))
      ∧ (arcs.map Prod.snd).Nodup
      ∧ arcs.map Prod.snd = sink :: (arcs.map Prod.snd).tail
      ∧ arcs.map Prod.fst = (arcs.map Prod.snd).tail ++ [source] := by
  obtain ⟨hinv, hsink⟩ := bfs_inv n cap adj source sink hs
  obtain ⟨hsinkvis, hsinkn, hsinksrc⟩ := hsink hb
  obtain ⟨r, hpred, hrbnd⟩ := hinv.rank
  have hrsink : r sink < n + 1 := by
    have := hrbnd sink hsinkn hsinkvis
    omega
  obtain ⟨arcs, hsome, ha, hbnd, hpw, -, hsnds, hf⟩ :=
    chainArcs_spec n cap adj source (bfs n cap adj source sink).2 r hpred
      (n + 1) sink hsinkn (Or.inr hsinkvis) hrsink
  have hne : arcs ≠ [] := by
    intro hnil
    have := (hsnds hsinksrc).2
    rw [hnil] at this
    simp at this
  have hsndnd : (arcs.map Prod.snd).Nodup := by
    apply hpw.imp
    intro a b h heq
    subst heq
    exact absurd h (lt_irrefl _)
  have hnd : arcs.Nodup := hsndnd.of_map Prod.snd
  refine ⟨arcs, hsome, hne, ha, fun p hp => (hbnd p hp).1, hnd, ?_, hf hsinksrc,
    hsndnd, (hsnds hsinksrc).2, (hsnds hsinksrc).1⟩
  intro p hp hrevmem
  have h1 := (hbnd p hp).2.1
  have h2 := (hbnd (p.2, p.1) hrevmem).2.1
  simp only at h2
  omega

/-- The `maxflow` loop keeps the residual matrix non-negative: the
bottleneck pushed along the (simple) BFS chain never exceeds any forward
arc's residual. -/
theorem maxflowAux_nonneg (adj : Nat → List Nat) (n source sink : Nat)
    (hs : source < n) :
    ∀ (k : Nat) (cap : Nat → Nat → Int) (flow : Int),
      (∀ u v, 0 ≤ cap u v) →
      ∀ u v, 0 ≤ (maxflowAux adj n source sink k cap flow).2 u v := by
  intro k
  induction k with
  | zero =>
    intro cap flow h u v
    simp only [maxflowAux]
    exact h u v
  | succ k ih =>
    intro cap flow h u v
    simp only [maxflowAux]
    by_cases hb : (bfs n cap adj source sink).1 = true
    · rw [if_pos hb]
      obtain ⟨arcs, hsome, hne, ha, hb2, hnd, hrev, -, -, -, -⟩ :=
        bfs_chain n cap adj source sink hs hb
      simp only [hsome]
      apply ih
      exact augment_nonneg arcs _ cap hnd hrev
        (fun p hp => pathFlowOf_le cap arcs p hp)
        (le_of_lt (pathFlowOf_pos cap arcs (fun p hp => (ha p hp).2.2.1)))
        h
    · rw [if_neg hb]
      exact h u v

/-- Augmenting along a simple source-to-sink chain lowers the total
residual capacity leaving the source by exactly the bottleneck. -/
theorem augment_source_row (n source : Nat) (cap : Nat → Nat → Int)
    (arcs : List (Nat × Nat)) (f : Int) (w : Nat)
    (hnd : arcs.Nodup) (hrev : ∀ p ∈ arcs, (p.2, p.1) ∉ arcs)
    (hnosnd : ∀ p ∈ arcs, p.2 ≠ source)
    (hw : (source, w) ∈ arcs)
    (huniq : ∀ p ∈ arcs, p.1 = source → p = (source, w))
    (hwn : w < n)
    (hle : f ≤ cap source w) (hf : 1 ≤ f)
    (hnn : ∀ x y, 0 ≤ cap x y) :
    (Finset.range n).sum (fun v => (augment cap arcs f source v).toNat) + f.toNat
      = (Finset.range n).sum (fun v => (cap source v).toNat) := by
  have heval : ∀ v, augment cap arcs f source v
      = cap source v - (if v = w then f else 0) := by
    intro v
    rw [augment_eval arcs f hnd hrev cap source v]
    have hrevz : (v, source) ∉ arcs := fun hc => (hnosnd (v, source) hc) rfl
    rw [if_neg hrevz]
    by_cases hvw : v = w
    · subst hvw
      rw [if_pos hw, if_pos rfl]
      ring
    · have hnotin : (source, v) ∉ arcs := by
        intro hc
        have := huniq (source, v) hc rfl
        simp only [Prod.mk.injEq] at this
        exact hvw this.2
      rw [if_neg hnotin, if_neg hvw]
      ring
  have hwmem : w ∈ Finset.range n := Finset.mem_range.2 hwn
  rw [← Finset.add_sum_erase (Finset.range n)
    (fun v => (augment cap arcs f source v).toNat) hwmem]
  rw [← Finset.add_sum_erase (Finset.range n)
    (fun v => (cap source v).toNat) hwmem]
  have hcong : ((Finset.range n).erase w).sum
        (fun v => (augment cap arcs f source v).toNat)
      = ((Finset.range n).erase w).sum (fun v => (cap source v).toNat) := by
    apply Finset.sum_congr rfl
    intro v hv
    have hvw : v ≠ w := Finset.ne_of_mem_erase hv
    rw [heval v, if_neg hvw]
    simp
  rw [hcong, heval w, if_pos rfl]
  have h2 : 0 ≤ cap source w := hnn source w
  omega

/-- Loop measure for `maxflow`: started with any bound exceeding the
total residual capacity leaving the source, the loop reaches a state in
which BFS finds no augmenting path — every successful iteration removes
at least one unit from that budget while keeping the matrix
non-negative. -/
theorem maxflowAux_term (adj : Nat → List Nat) (n source sink : Nat)
    (hs : source < n) :
    ∀ (fuel : Nat) (cap : Nat → Nat → Int) (flow : Int),
      (∀ u v, 0 ≤ cap u v) →
      (Finset.range n).sum (fun v => (cap source v).toNat) < fuel →
      (bfs n (maxflowAux adj n source sink fuel cap flow).2 adj source sink).1
        = false := by
  intro fuel
  induction fuel with
  | zero =>
    intro cap flow _ h
    exact absurd h (Nat.not_lt_zero _)
  | succ fuel ih =>
    intro cap flow hnn hlt
    simp only [maxflowAux]
    by_cases hb : (bfs n cap adj source sink).1 = true
    · rw [if_pos hb]
      obtain ⟨arcs, hsome, hne, ha, hb2, hnd, hrev, ⟨w, hw, huniq⟩, -, -, -⟩ :=
        bfs_chain n cap adj source sink hs hb
      simp only [hsome]
      have hple : pathFlowOf cap arcs ≤ cap source w := by
        have := pathFlowOf_le cap arcs (source, w) hw
        simpa using this
      have hppos : 0 < pathFlowOf cap arcs :=
        pathFlowOf_pos cap arcs (fun p hp => (ha p hp).2.2.1)
      have hrow := augment_source_row n source cap arcs (pathFlowOf cap arcs) w
        hnd hrev hb2 hw huniq ((ha (source, w) hw).2.1) hple (by omega) hnn
      apply ih
      · exact augment_nonneg arcs _ cap hnd hrev
          (fun p hp => pathFlowOf_le cap arcs p hp) (by omega) hnn
      · omega
    · rw [if_neg hb]
      simpa using hb


/-- Claim C9: every entry of the residual matrix is a non-negative
integer at every point during `solve`: for every number `k` of loop
iterations performed, no `residual[u][v]` has become negative, because
the bottleneck subtracted from each forward arc on the augmenting path
is the minimum residual capacity along the (simple) path and so never
exceeds that arc's residual at the time of the update. -/
theorem C9_residual_nonneg (m : MaxFlow) (source sink : Nat)
    (h0 : ∀ u v, 0 ≤ m.capacity u v) (_hn : 0 < m.n) (hs : source < m.n)
    (_ht : sink < m.n) (_hst : source ≠ sink) :
    ∀ (k u v : Nat),
      0 ≤ (maxflowAux m.adj m.n source sink k m.capacity 0).2 u v :=
  fun k u v => maxflowAux_nonneg m.adj m.n source sink hs k m.capacity 0 h0 u v

theorem C9_residual_nonneg_witness :
    0 ≤ (maxflowAux (MaxFlow.mk0 2).adj 2 0 1 1 (MaxFlow.mk0 2).capacity 0).2 0 1 :=
  C9_residual_nonneg (MaxFlow.mk0 2) 0 1 (fun _ _ => le_refl 0) (by decide)
    (by decide) (by decide) (by decide) 1 0 1

/-- Claim C6: for every valid input (positive node count, non-negative
capacities, in-range source and sink, source distinct from sink),
`solve` terminates: the loop of BFS followed by augmentation reaches,
after finitely many iterations — within the embedded iteration budget —
the state where no augmenting path exists (the BFS on the final residual
matrix fails), at which point the accumulated flow value is returned. -/
theorem C6_solve_terminates (m : MaxFlow) (source sink : Nat)
    (h0 : ∀ u v, 0 ≤ m.capacity u v) (_hn : 0 < m.n) (hs : source < m.n)
    (_ht : sink < m.n) (_hst : source ≠ sink) :
    (bfs m.n (m.maxflow source sink).2 m.adj source sink).1 = false := by
  unfold MaxFlow.maxflow maxflowFuel
  exact maxflowAux_term m.adj m.n source sink hs _ m.capacity 0 h0
    (Nat.lt_succ_self _)

theorem C6_solve_terminates_witness :
    (bfs (MaxFlow.mk0 2).n ((MaxFlow.mk0 2).maxflow 0 1).2
      (MaxFlow.mk0 2).adj 0 1).1 = false :=
  C6_solve_terminates (MaxFlow.mk0 2) 0 1 (fun _ _ => le_refl 0) (by decide)
    (by decide) (by decide) (by decide)


/-! ## Flow conservation along one augmentation -/

theorem sum_update_one (n : Nat) (g g' : Nat → Int) (a : Nat) (han : a < n)
    (d : Int) (ha : g' a = g a + d) (hother : ∀ v, v ≠ a → g' v = g v) :
    (Finset.range n).sum g' = (Finset.range n).sum g + d := by
  have hmem : a ∈ Finset.range n := Finset.mem_range.2 han
  rw [← Finset.add_sum_erase (Finset.range n) g' hmem,
      ← Finset.add_sum_erase (Finset.range n) g hmem]
  have hcong : ((Finset.range n).erase a).sum g' = ((Finset.range n).erase a).sum g :=
    Finset.sum_congr rfl (fun v hv => hother v (Finset.ne_of_mem_erase hv))
  rw [hcong, ha]
  ring

theorem sum_update_two (n : Nat) (g g' : Nat → Int) (a b : Nat) (han : a < n)
    (hbn : b < n) (hab : a ≠ b) (d : Int)
    (ha : g' a = g a + d) (hb : g' b = g b - d)
    (hother : ∀ v, v ≠ a → v ≠ b → g' v = g v) :
    (Finset.range n).sum g' = (Finset.range n).sum g := by
  have hmema : a ∈ Finset.range n := Finset.mem_range.2 han
  have hmemb : b ∈ (Finset.range n).erase a :=
    Finset.mem_erase.2 ⟨Ne.symm hab, Finset.mem_range.2 hbn⟩
  rw [← Finset.add_sum_erase (Finset.range n) g' hmema,
      ← Finset.add_sum_erase _ g' hmemb,
      ← Finset.add_sum_erase (Finset.range n) g hmema,
      ← Finset.add_sum_erase _ g hmemb]
  have hcong : (((Finset.range n).erase a).erase b).sum g'
      = (((Finset.range n).erase a).erase b).sum g := by
    apply Finset.sum_congr rfl
    intro v hv
    have hvb : v ≠ b := Finset.ne_of_mem_erase hv
    have hva : v ≠ a := Finset.ne_of_mem_erase (Finset.mem_of_mem_erase hv)
    exact hother v hva hvb
  rw [hcong, ha, hb]
  ring

/-- On the simple source-to-sink chain, a node other than the source and
the sink either touches no arc at all, or has exactly one incoming and
one outgoing arc (with distinct other endpoints). -/
theorem chain_interior (arcs : List (Nat × Nat)) (source sink w : Nat)
    (hsndnd : (arcs.map Prod.snd).Nodup)
    (hhead : arcs.map Prod.snd = sink :: (arcs.map Prod.snd).tail)
    (hfst : arcs.map Prod.fst = (arcs.map Prod.snd).tail ++ [source])
    (hnosnd : ∀ p ∈ arcs, p.2 ≠ source)
    (hrev : ∀ p ∈ arcs, (p.2, p.1) ∉ arcs)
    (hwsrc : w ≠ source) (hwsink : w ≠ sink) :
    ((∀ v, (w, v) ∉ arcs) ∧ (∀ v, (v, w) ∉ arcs))
    ∨ (∃ a b, (a, w) ∈ arcs ∧ (w, b) ∈ arcs ∧ a ≠ b
        ∧ (∀ v, (w, v) ∈ arcs → v = b) ∧ (∀ v, (v, w) ∈ arcs → v = a)) := by
  have hsrc_tail : source ∉ (arcs.map Prod.snd).tail := by
    intro hmem
    have : source ∈ arcs.map Prod.snd := by
      rw [hhead]
      exact List.mem_cons_of_mem _ hmem
    rcases List.mem_map.1 this with ⟨p, hp, hps⟩
    exact hnosnd p hp hps
  have htailnd : (arcs.map Prod.snd).tail.Nodup := by
    rw [hhead] at hsndnd
    exact (List.nodup_cons.1 hsndnd).2
  have hfstnd : (arcs.map Prod.fst).Nodup := by
    rw [hfst]
    rw [List.nodup_append]
    exact ⟨htailnd, List.nodup_singleton _, by
      intro x hx hx'
      rw [List.mem_singleton] at hx'
      rw [hx'] at hx
      exact hsrc_tail hx⟩
  have hsnd_inj : ∀ p ∈ arcs, ∀ q ∈ arcs, p.2 = q.2 → p = q :=
    fun _ hp _ hq h => List.inj_on_of_nodup_map hsndnd hp hq h
  have hfst_inj : ∀ p ∈ arcs, ∀ q ∈ arcs, p.1 = q.1 → p = q :=
    fun _ hp _ hq h => List.inj_on_of_nodup_map hfstnd hp hq h
  by_cases hwt : w ∈ (arcs.map Prod.snd).tail
  · right
    have hwsnds : w ∈ arcs.map Prod.snd := by
      rw [hhead]; exact List.mem_cons_of_mem _ hwt
    rcases List.mem_map.1 hwsnds with ⟨pin, hpin, hpin2⟩
    have hwfsts : w ∈ arcs.map Prod.fst := by
      rw [hfst]
      exact List.mem_append_left _ hwt
    rcases List.mem_map.1 hwfsts with ⟨pout, hpout, hpout1⟩
    refine ⟨pin.1, pout.2, ?_, ?_, ?_, ?_, ?_⟩
    · have : pin = (pin.1, w) := by
        rw [← hpin2]
      rw [← this]; exact hpin
    · have : pout = (w, pout.2) := by
        rw [← hpout1]
      rw [← this]; exact hpout
    · intro hab
      have hrevp : (pout.2, pout.1) ∉ arcs := hrev pout hpout
      have : (pout.2, pout.1) = pin := by
        have h1 : pout.2 = pin.1 := hab.symm
        have h2 : pout.1 = pin.2 := by rw [hpout1, hpin2]
        rw [h1, h2]
      rw [this] at hrevp
      exact hrevp hpin
    · intro v hv
      have heq := hfst_inj (w, v) hv pout hpout (by rw [hpout1])
      rw [← heq]
    · intro v hv
      have heq := hsnd_inj (v, w) hv pin hpin (by rw [hpin2])
      rw [← heq]
  · left
    constructor
    · intro v hv
      have : w ∈ arcs.map Prod.fst := List.mem_map.2 ⟨(w, v), hv, rfl⟩
      rw [hfst] at this
      rcases List.mem_append.1 this with h | h
      · exact hwt h
      · rw [List.mem_singleton] at h
        exact hwsrc h
    · intro v hv
      have : w ∈ arcs.map Prod.snd := List.mem_map.2 ⟨(v, w), hv, rfl⟩
      rw [hhead] at this
      rcases List.mem_cons.1 this with h | h
      · exact hwsink h
      · exact hwt h

/-- The sink of the chain has exactly one incoming and no outgoing arc. -/
theorem chain_sink (arcs : List (Nat × Nat)) (source sink : Nat)
    (hsndnd : (arcs.map Prod.snd).Nodup)
    (hhead : arcs.map Prod.snd = sink :: (arcs.map Prod.snd).tail)
    (hfst : arcs.map Prod.fst = (arcs.map Prod.snd).tail ++ [source])
    (hsinksrc : sink ≠ source) :
    ∃ a, (a, sink) ∈ arcs ∧ (∀ v, (v, sink) ∈ arcs → v = a)
      ∧ (∀ v, (sink, v) ∉ arcs) := by
  have hsink_snds : sink ∈ arcs.map Prod.snd := by
    rw [hhead]; exact List.mem_cons_self _ _
  rcases List.mem_map.1 hsink_snds with ⟨pin, hpin, hpin2⟩
  have hsnd_inj : ∀ p ∈ arcs, ∀ q ∈ arcs, p.2 = q.2 → p = q :=
    fun _ hp _ hq h => List.inj_on_of_nodup_map hsndnd hp hq h
  have hsink_tail : sink ∉ (arcs.map Prod.snd).tail := by
    intro hmem
    rw [hhead] at hsndnd
    exact (List.nodup_cons.1 hsndnd).1 hmem
  refine ⟨pin.1, ?_, ?_, ?_⟩
  · have : pin = (pin.1, sink) := by rw [← hpin2]
    rw [← this]; exact hpin
  · intro v hv
    have heq := hsnd_inj (v, sink) hv pin hpin (by rw [hpin2])
    rw [← heq]
  · intro v hv
    have : sink ∈ arcs.map Prod.fst := List.mem_map.2 ⟨(sink, v), hv, rfl⟩
    rw [hfst] at this
    rcases List.mem_append.1 this with h | h
    · exact hsink_tail h
    · rw [List.mem_singleton] at h
      exact hsinksrc h


/-- An augmentation along the chain leaves the net out-capacity of every
internal node unchanged. -/
theorem augment_rowSum_interior (n : Nat) (cap : Nat → Nat → Int)
    (arcs : List (Nat × Nat)) (f : Int) (source sink w : Nat)
    (hnd : arcs.Nodup) (hrev : ∀ p ∈ arcs, (p.2, p.1) ∉ arcs)
    (hsndnd : (arcs.map Prod.snd).Nodup)
    (hhead : arcs.map Prod.snd = sink :: (arcs.map Prod.snd).tail)
    (hfst : arcs.map Prod.fst = (arcs.map Prod.snd).tail ++ [source])
    (hnosnd : ∀ p ∈ arcs, p.2 ≠ source)
    (hrange : ∀ p ∈ arcs, p.1 < n ∧ p.2 < n)
    (hwsrc : w ≠ source) (hwsink : w ≠ sink) :
    (Finset.range n).sum (fun v => augment cap arcs f w v)
      = (Finset.range n).sum (fun v => cap w v) := by
  rcases chain_interior arcs source sink w hsndnd hhead hfst hnosnd hrev hwsrc hwsink
    with ⟨hout, hin⟩ | ⟨a, b, hain, hbout, hab, huniqb, huniqa⟩
  · apply Finset.sum_congr rfl
    intro v _
    rw [augment_eval arcs f hnd hrev cap w v, if_neg (hout v), if_neg (hin v)]
    ring
  · have heval : ∀ v, augment cap arcs f w v
        = cap w v - (if v = b then f else 0) + (if v = a then f else 0) := by
      intro v
      rw [augment_eval arcs f hnd hrev cap w v]
      by_cases hvb : v = b
      · subst hvb
        have hvw_notin : (v, w) ∉ arcs := by
          intro hc
          exact hab (huniqa v hc).symm
        rw [if_pos hbout, if_neg hvw_notin, if_pos rfl, if_neg (by omega)]
      · by_cases hva : v = a
        · subst hva
          have hwv_notin : (w, v) ∉ arcs := by
            intro hc
            exact hvb (huniqb v hc)
          rw [if_neg hwv_notin, if_pos hain, if_neg hvb, if_pos rfl]
        · have hwv_notin : (w, v) ∉ arcs := fun hc => hvb (huniqb v hc)
          have hvw_notin : (v, w) ∉ arcs := fun hc => hva (huniqa v hc)
          rw [if_neg hwv_notin, if_neg hvw_notin, if_neg hvb, if_neg hva]
    have han : a < n := (hrange (a, w) hain).1
    have hbn : b < n := (hrange (w, b) hbout).2
    apply sum_update_two n (fun v => cap w v) (fun v => augment cap arcs f w v)
      a b han hbn hab f
    · rw [heval a, if_neg hab, if_pos rfl]
      ring
    · rw [heval b, if_pos rfl, if_neg (fun h : b = a => hab h.symm)]
      ring
    · intro v hva hvb
      rw [heval v, if_neg hvb, if_neg hva]
      ring

/-- An augmentation along the chain raises the net out-capacity of the
sink by exactly the bottleneck (its lone incident arc is incoming). -/
theorem augment_rowSum_sink (n : Nat) (cap : Nat → Nat → Int)
    (arcs : List (Nat × Nat)) (f : Int) (source sink : Nat)
    (hnd : arcs.Nodup) (hrev : ∀ p ∈ arcs, (p.2, p.1) ∉ arcs)
    (hsndnd : (arcs.map Prod.snd).Nodup)
    (hhead : arcs.map Prod.snd = sink :: (arcs.map Prod.snd).tail)
    (hfst : arcs.map Prod.fst = (arcs.map Prod.snd).tail ++ [source])
    (hrange : ∀ p ∈ arcs, p.1 < n ∧ p.2 < n)
    (hsinksrc : sink ≠ source) :
    (Finset.range n).sum (fun v => augment cap arcs f sink v)
      = (Finset.range n).sum (fun v => cap sink v) + f := by
  obtain ⟨a, hain, huniqa, hout⟩ :=
    chain_sink arcs source sink hsndnd hhead hfst hsinksrc
  have heval : ∀ v, augment cap arcs f sink v
      = cap sink v + (if v = a then f else 0) := by
    intro v
    rw [augment_eval arcs f hnd hrev cap sink v, if_neg (hout v)]
    by_cases hva : v = a
    · subst hva
      rw [if_pos hain, if_pos rfl]
      ring
    · have hnotin : (v, sink) ∉ arcs := fun hc => hva (huniqa v hc)
      rw [if_neg hnotin, if_neg hva]
      ring
  have han : a < n := (hrange (a, sink) hain).1
  apply sum_update_one n (fun v => cap sink v) (fun v => augment cap arcs f sink v)
    a han f
  · rw [heval a, if_pos rfl]
  · intro v hva
    rw [heval v, if_neg hva]
    ring

/-- An augmentation along the chain lowers the net out-capacity of the
source by exactly the bottleneck (its lone incident arc is outgoing). -/
theorem augment_rowSum_source (n : Nat) (cap : Nat → Nat → Int)
    (arcs : List (Nat × Nat)) (f : Int) (source : Nat) (w : Nat)
    (hnd : arcs.Nodup) (hrev : ∀ p ∈ arcs, (p.2, p.1) ∉ arcs)
    (hnosnd : ∀ p ∈ arcs, p.2 ≠ source)
    (hw : (source, w) ∈ arcs)
    (huniq : ∀ p ∈ arcs, p.1 = source → p = (source, w))
    (hwn : w < n) :
    (Finset.range n).sum (fun v => augment cap arcs f source v)
      = (Finset.range n).sum (fun v => cap source v) - f := by
  have heval : ∀ v, augment cap arcs f source v
      = cap source v - (if v = w then f else 0) := by
    intro v
    rw [augment_eval arcs f hnd hrev cap source v]
    have hrevz : (v, source) ∉ arcs := fun hc => (hnosnd (v, source) hc) rfl
    rw [if_neg hrevz]
    by_cases hvw : v = w
    · subst hvw
      rw [if_pos hw, if_pos rfl]
      ring
    · have hnotin : (source, v) ∉ arcs := by
        intro hc
        have := huniq (source, v) hc rfl
        simp only [Prod.mk.injEq] at this
        exact hvw this.2
      rw [if_neg hnotin, if_neg hvw]
      ring
  have hgoal := sum_update_one n (fun v => cap source v)
    (fun v => augment cap arcs f source v) w hwn (-f) ?_ ?_
  · rw [hgoal]
    ring
  · show augment cap arcs f source w = cap source w + -f
    rw [heval w, if_pos rfl]
    ring
  · intro v hvw
    show augment cap arcs f source v = cap source v
    rw [heval v, if_neg hvw]
    ring

/-! ## Row sums through the whole solve loop -/

/-- Through any number of `maxflow` iterations, the net out-capacity of
the source falls by exactly the flow accumulated, the sink gains it, and
every other row keeps its sum. -/
theorem maxflowAux_rowSums (adj : Nat → List Nat) (n source sink : Nat)
    (hs : source < n) (hts : sink ≠ source) :
    ∀ (k : Nat) (cap : Nat → Nat → Int) (flow : Int),
      (∀ u v, 0 ≤ cap u v) →
      ((Finset.range n).sum
          (fun v => (maxflowAux adj n source sink k cap flow).2 source v)
        = (Finset.range n).sum (fun v => cap source v)
          - ((maxflowAux adj n source sink k cap flow).1 - flow))
      ∧ ((Finset.range n).sum
          (fun v => (maxflowAux adj n source sink k cap flow).2 sink v)
        = (Finset.range n).sum (fun v => cap sink v)
          + ((maxflowAux adj n source sink k cap flow).1 - flow))
      ∧ (∀ w, w ≠ source → w ≠ sink →
          (Finset.range n).sum
              (fun v => (maxflowAux adj n source sink k cap flow).2 w v)
            = (Finset.range n).sum (fun v => cap w v)) := by
  intro k
  induction k with
  | zero =>
    intro cap flow _
    simp only [maxflowAux]
    refine ⟨by ring, by ring, ?_⟩
    intro w _ _
    trivial
  | succ k ih =>
    intro cap flow hnn
    by_cases hb : (bfs n cap adj source sink).1 = true
    · obtain ⟨arcs, hsome, hne, ha, hnos, hnd, hrev, ⟨w, hw, huniq⟩,
        hsndnd, hhead, hfst⟩ := bfs_chain n cap adj source sink hs hb
      have hstep : maxflowAux adj n source sink (k + 1) cap flow
          = maxflowAux adj n source sink k
              (augment cap arcs (pathFlowOf cap arcs))
              (flow + pathFlowOf cap arcs) := by
        simp only [maxflowAux]
        rw [if_pos hb]
        simp only [hsome]
      have hnn' : ∀ u v, 0 ≤ augment cap arcs (pathFlowOf cap arcs) u v :=
        augment_nonneg arcs _ cap hnd hrev
          (fun p hp => pathFlowOf_le cap arcs p hp)
          (le_of_lt (pathFlowOf_pos cap arcs (fun p hp => (ha p hp).2.2.1)))
          hnn
      obtain ⟨ihs, iht, ihw⟩ :=
        ih (augment cap arcs (pathFlowOf cap arcs)) (flow + pathFlowOf cap arcs)
          hnn'
      have hrange : ∀ p ∈ arcs, p.1 < n ∧ p.2 < n :=
        fun p hp => ⟨(ha p hp).1, (ha p hp).2.1⟩
      have hsrc := augment_rowSum_source n cap arcs (pathFlowOf cap arcs)
        source w hnd hrev hnos hw huniq ((ha (source, w) hw).2.1)
      have hsnk := augment_rowSum_sink n cap arcs (pathFlowOf cap arcs)
        source sink hnd hrev hsndnd hhead hfst hrange hts
      rw [hstep]
      refine ⟨?_, ?_, ?_⟩
      · rw [ihs, hsrc]
        ring
      · rw [iht, hsnk]
        ring
      · intro w1 hw1 hw2
        rw [ihw w1 hw1 hw2,
          augment_rowSum_interior n cap arcs (pathFlowOf cap arcs)
            source sink w1 hnd hrev hsndnd hhead hfst hnos hrange hw1 hw2]
    · have hstep : maxflowAux adj n source sink (k + 1) cap flow = (flow, cap) := by
        simp only [maxflowAux]
        rw [if_neg hb]
      rw [hstep]
      refine ⟨by ring, by ring, ?_⟩
      intro w _ _
      rfl

/-- The solve loop only changes residual entries lying on some BFS arc,
hence only entries whose endpoints are adjacent in one direction. -/
theorem maxflowAux_touched (adj : Nat → List Nat) (n source sink : Nat)
    (hs : source < n) :
    ∀ (k : Nat) (cap : Nat → Nat → Int) (flow : Int),
      (∀ u v, 0 ≤ cap u v) →
      ∀ u v, (maxflowAux adj n source sink k cap flow).2 u v ≠ cap u v →
        v ∈ adj u ∨ u ∈ adj v := by
  intro k
  induction k with
  | zero =>
    intro cap flow _ u v h
    exact absurd rfl h
  | succ k ih =>
    intro cap flow hnn u v h
    by_cases hb : (bfs n cap adj source sink).1 = true
    · obtain ⟨arcs, hsome, hne, ha, hnos, hnd, hrev, -, -, -, -⟩ :=
        bfs_chain n cap adj source sink hs hb
      have hstep : maxflowAux adj n source sink (k + 1) cap flow
          = maxflowAux adj n source sink k
              (augment cap arcs (pathFlowOf cap arcs))
              (flow + pathFlowOf cap arcs) := by
        simp only [maxflowAux]
        rw [if_pos hb]
        simp only [hsome]
      rw [hstep] at h
      by_cases heq : augment cap arcs (pathFlowOf cap arcs) u v = cap u v
      · have hnn' : ∀ u v, 0 ≤ augment cap arcs (pathFlowOf cap arcs) u v :=
          augment_nonneg arcs _ cap hnd hrev
            (fun p hp => pathFlowOf_le cap arcs p hp)
            (le_of_lt (pathFlowOf_pos cap arcs (fun p hp => (ha p hp).2.2.1)))
            hnn
        apply ih (augment cap arcs (pathFlowOf cap arcs))
          (flow + pathFlowOf cap arcs) hnn' u v
        intro hc
        exact h (by rw [hc, heq])
      · by_cases h1 : (u, v) ∈ arcs
        · exact Or.inl ((ha (u, v) h1).2.2.2)
        · by_cases h2 : (v, u) ∈ arcs
          · exact Or.inr ((ha (v, u) h2).2.2.2)
          · exfalso
            apply heq
            rw [augment_eval arcs (pathFlowOf cap arcs) hnd hrev cap u v,
              if_neg h1, if_neg h2]
            ring
    · have hstep : maxflowAux adj n source sink (k + 1) cap flow = (flow, cap) := by
        simp only [maxflowAux]
        rw [if_neg hb]
      rw [hstep] at h
      exact absurd rfl h

/-- The difference between the initial and the final residual matrix is
a feasible flow whose value is exactly the flow value `maxflow`
returns. -/
theorem maxflow_feasible_value (m : MaxFlow) (s t : Nat)
    (h0 : ∀ u v, 0 ≤ m.capacity u v) (hs : s < m.n) (hts : t ≠ s) :
    Feasible m.n m.capacity s t
        (fun u v => m.capacity u v - (m.maxflow s t).2 u v)
      ∧ flowValue m.n s (fun u v => m.capacity u v - (m.maxflow s t).2 u v)
        = (m.maxflow s t).1 := by
  have hpair := maxflowAux_pairSum m.adj m.n s t
    (maxflowFuel m.n m.capacity s) m.capacity 0
  have hnn := maxflowAux_nonneg m.adj m.n s t hs
    (maxflowFuel m.n m.capacity s) m.capacity 0 h0
  obtain ⟨hrs, -, hrw⟩ := maxflowAux_rowSums m.adj m.n s t hs hts
    (maxflowFuel m.n m.capacity s) m.capacity 0 h0
  refine ⟨⟨?_, ?_, ?_⟩, ?_⟩
  · intro u v
    show m.capacity u v
        - (maxflowAux m.adj m.n s t (maxflowFuel m.n m.capacity s) m.capacity 0).2 u v
      = -(m.capacity v u
        - (maxflowAux m.adj m.n s t (maxflowFuel m.n m.capacity s) m.capacity 0).2 v u)
    have := hpair u v
    omega
  · intro u v _ _
    show m.capacity u v
        - (maxflowAux m.adj m.n s t (maxflowFuel m.n m.capacity s) m.capacity 0).2 u v
      ≤ m.capacity u v
    have := hnn u v
    omega
  · intro u hun hus hut
    show (Finset.range m.n).sum (fun v => m.capacity u v
        - (maxflowAux m.adj m.n s t (maxflowFuel m.n m.capacity s) m.capacity 0).2 u v)
      = 0
    rw [Finset.sum_sub_distrib, hrw u hus hut]
    ring
  · show (Finset.range m.n).sum (fun v => m.capacity s v
        - (maxflowAux m.adj m.n s t (maxflowFuel m.n m.capacity s) m.capacity 0).2 s v)
      = (maxflowAux m.adj m.n s t (maxflowFuel m.n m.capacity s) m.capacity 0).1
    rw [Finset.sum_sub_distrib, hrs]
    ring

/-! ## Completeness of a failed BFS: the visited set is a cut -/

/-- When the worklist loop ends without reaching the sink, the visited
set it leaves behind is closed under positive-residual adjacency (every
positive neighbour of a visited node is visited), previously visited
slots are untouched, and the sink slot is untouched. -/
theorem bfsAux_closed (n : Nat) (cap : Nat → Nat → Int) (adj : Nat → List Nat)
    (source sink : Nat) :
    ∀ (fuel : Nat) (q : List (Nat × Int)) (parent : List Int),
      ParentInv n cap adj source parent →
      (∀ p ∈ q, p.1 < n ∧ parent.getD p.1 0 ≠ -1) →
      (∀ u, u < n → parent.getD u 0 ≠ -1 → u ∉ q.map Prod.fst →
        ∀ v ∈ adj u, 0 < cap u v → parent.getD v 0 ≠ -1) →
      q.length + parent.count (-1) < fuel →
      (bfsAux cap adj sink fuel q parent).1 = false →
      (∀ w, parent.getD w 0 ≠ -1 →
          (bfsAux cap adj sink fuel q parent).2.getD w 0 = parent.getD w 0)
      ∧ (bfsAux cap adj sink fuel q parent).2.getD sink 0 = parent.getD sink 0
      ∧ (∀ u, u < n → (bfsAux cap adj sink fuel q parent).2.getD u 0 ≠ -1 →
          ∀ v ∈ adj u, 0 < cap u v →
            (bfsAux cap adj sink fuel q parent).2.getD v 0 ≠ -1) := by
  intro fuel
  induction fuel with
  | zero =>
    intro q parent _ _ _ hmeas _
    exact absurd hmeas (Nat.not_lt_zero _)
  | succ fuel ih =>
    intro q parent hinv hq hclosed hmeas hfalse
    cases q with
    | nil =>
      refine ⟨fun w _ => rfl, rfl, ?_⟩
      intro u hun huvis v hv hcap
      exact hclosed u hun huvis (by simp) v hv hcap
    | cons p rest =>
      obtain ⟨u, fl⟩ := p
      obtain ⟨hun, huvis⟩ := hq (u, fl) (List.mem_cons_self _ _)
      obtain ⟨h1, h2, h3, h4, h5, h6, h7, h8⟩ :=
        visitNeighbors_inv n cap adj source sink u fl hun (adj u) parent hinv
          huvis (fun _ hv => hv)
      by_cases hf : (visitNeighbors cap sink u fl (adj u) parent).2.2 = true
      · have hres : bfsAux cap adj sink (fuel + 1) ((u, fl) :: rest) parent
            = (true, (visitNeighbors cap sink u fl (adj u) parent).1) := by
          simp only [bfsAux]
          rw [if_pos hf]
        rw [hres] at hfalse
        simp at hfalse
      · have hf1 : (visitNeighbors cap sink u fl (adj u) parent).2.2 = false :=
          Bool.eq_false_iff.mpr hf
        have hres : bfsAux cap adj sink (fuel + 1) ((u, fl) :: rest) parent
            = bfsAux cap adj sink fuel
                (rest ++ (visitNeighbors cap sink u fl (adj u) parent).2.1)
                (visitNeighbors cap sink u fl (adj u) parent).1 := by
          simp only [bfsAux]
          rw [if_neg hf]
        rw [hres] at hfalse ⊢
        have hq1 : ∀ p ∈ rest ++ (visitNeighbors cap sink u fl (adj u) parent).2.1,
            p.1 < n
            ∧ (visitNeighbors cap sink u fl (adj u) parent).1.getD p.1 0 ≠ -1 := by
          intro p hp
          rcases List.mem_append.1 hp with hp | hp
          · obtain ⟨hpn, hpvis⟩ := hq p (List.mem_cons_of_mem _ hp)
            exact ⟨hpn, by rw [h2 p.1 hpvis]; exact hpvis⟩
          · exact h3 p hp
        have hclosed1 : ∀ u1, u1 < n →
            (visitNeighbors cap sink u fl (adj u) parent).1.getD u1 0 ≠ -1 →
            u1 ∉ (rest ++ (visitNeighbors cap sink u fl (adj u) parent).2.1).map
              Prod.fst →
            ∀ v ∈ adj u1, 0 < cap u1 v →
              (visitNeighbors cap sink u fl (adj u) parent).1.getD v 0 ≠ -1 := by
          intro u1 hu1n hu1vis hu1notin v hv hcap
          rw [List.map_append] at hu1notin
          by_cases hold : parent.getD u1 0 = -1
          · have hmem := h8 hf1 u1 hold hu1vis
            exact absurd (List.mem_append.2 (Or.inr hmem)) hu1notin
          · by_cases huu : u1 = u
            · subst huu
              exact h6 hf1 v hv hcap
            · have hnotq : u1 ∉ ((u, fl) :: rest).map Prod.fst := by
                intro hmem
                simp only [List.map_cons] at hmem
                rcases List.mem_cons.1 hmem with h | h
                · exact huu h
                · exact hu1notin (List.mem_append.2 (Or.inl h))
              have hvold := hclosed u1 hu1n hold hnotq v hv hcap
              rw [h2 v hvold]
              exact hvold
        have hmeas1 : (rest ++ (visitNeighbors cap sink u fl (adj u) parent).2.1).length
            + (visitNeighbors cap sink u fl (adj u) parent).1.count (-1) < fuel := by
          have hcnt := visitNeighbors_count cap sink u fl (adj u) parent
          rw [List.length_append]
          have hlen : ((u, fl) :: rest).length = rest.length + 1 := rfl
          rw [hlen] at hmeas
          omega
        obtain ⟨ihA, ihB, ihC⟩ := ih
          (rest ++ (visitNeighbors cap sink u fl (adj u) parent).2.1)
          (visitNeighbors cap sink u fl (adj u) parent).1
          h1 hq1 hclosed1 hmeas1 hfalse
        refine ⟨?_, ?_, ihC⟩
        · intro w hw
          have hw1 : (visitNeighbors cap sink u fl (adj u) parent).1.getD w 0 ≠ -1 := by
            rw [h2 w hw]
            exact hw
          rw [ihA w hw1, h2 w hw]
        · rw [ihB, h5 hf1]

/-- When `bfs` fails, the set of visited nodes contains the source, not
the sink, and no positive-residual arc in the adjacency lists leaves
it. -/
theorem bfs_false_closed (n : Nat) (cap : Nat → Nat → Int) (adj : Nat → List Nat)
    (source sink : Nat) (hs : source < n) (ht : sink < n) (hts : sink ≠ source)
    (hfalse : (bfs n cap adj source sink).1 = false) :
    (bfs n cap adj source sink).2.getD source 0 ≠ -1
    ∧ (bfs n cap adj source sink).2.getD sink 0 = -1
    ∧ (∀ u, u < n → (bfs n cap adj source sink).2.getD u 0 ≠ -1 →
        ∀ v ∈ adj u, 0 < cap u v →
          (bfs n cap adj source sink).2.getD v 0 ≠ -1) := by
  have hslen : source < (List.replicate n (-1 : Int)).length := by
    rw [List.length_replicate]
    exact hs
  have hsrcvis : ((List.replicate n (-1 : Int)).set source (source : Int)).getD source 0
      = (source : Int) := getD_set_self _ source _ hslen
  have hcnt : ((List.replicate n (-1 : Int)).set source (source : Int)).count (-1)
      = n - 1 := by
    have h := count_set_of_get (List.replicate n (-1)) source (source : Int) (-1) hslen
    rw [getD_replicate_lt n source (-1) hs] at h
    rw [if_pos rfl, if_neg (by omega : ¬ (source : Int) = -1)] at h
    have hrep : (List.replicate n (-1 : Int)).count (-1) = n := by
      simp
    omega
  have hunvis : ∀ v, v < n → v ≠ source →
      ((List.replicate n (-1 : Int)).set source (source : Int)).getD v 0 = -1 := by
    intro v hvn hvsrc
    rw [getD_set_ne _ source v _ hvsrc]
    exact getD_replicate_lt n v (-1) hvn
  have hinit : ParentInv n cap adj source
      ((List.replicate n (-1)).set source (source : Int)) := by
    refine ⟨by rw [List.length_set, List.length_replicate], hs, hsrcvis,
      ⟨fun _ => 0, ?_, ?_⟩⟩
    · intro v hvn hvsrc hvvis
      exact absurd (hunvis v hvn hvsrc) hvvis
    · intro v hvn hvvis
      have h0 : (fun _ : Nat => (0 : Nat)) v = 0 := rfl
      rw [hcnt, h0]
      omega
  have hq0 : ∀ p ∈ [(source, INT_MAX)], p.1 < n
      ∧ ((List.replicate n (-1 : Int)).set source (source : Int)).getD p.1 0 ≠ -1 := by
    intro p hp
    rw [List.mem_singleton] at hp
    rw [hp]
    refine ⟨hs, ?_⟩
    rw [hsrcvis]
    omega
  have hclosed0 : ∀ u, u < n →
      ((List.replicate n (-1 : Int)).set source (source : Int)).getD u 0 ≠ -1 →
      u ∉ ([(source, INT_MAX)] : List (Nat × Int)).map Prod.fst →
      ∀ v ∈ adj u, 0 < cap u v →
        ((List.replicate n (-1 : Int)).set source (source : Int)).getD v 0 ≠ -1 := by
    intro u hun huvis hunot v hv hcap
    exfalso
    simp only [List.map_cons, List.map_nil] at hunot
    have husrc : u ≠ source := by
      intro h
      exact hunot (by rw [h]; exact List.mem_singleton.2 rfl)
    exact huvis (hunvis u hun husrc)
  have hmeas0 : ([(source, INT_MAX)] : List (Nat × Int)).length
      + ((List.replicate n (-1 : Int)).set source (source : Int)).count (-1)
      < n + 2 := by
    have hlen : ([(source, INT_MAX)] : List (Nat × Int)).length = 1 := rfl
    rw [hlen, hcnt]
    omega
  have hbfs : bfs n cap adj source sink
      = bfsAux cap adj sink (n + 2) [(source, INT_MAX)]
          ((List.replicate n (-1)).set source (source : Int)) := rfl
  rw [hbfs] at hfalse ⊢
  obtain ⟨hA, hB, hC⟩ := bfsAux_closed n cap adj source sink (n + 2)
    [(source, INT_MAX)] _ hinit hq0 hclosed0 hmeas0 hfalse
  refine ⟨?_, ?_, hC⟩
  · have : ((List.replicate n (-1 : Int)).set source (source : Int)).getD source 0
        ≠ -1 := by
      rw [hsrcvis]
      omega
    rw [hA source this, hsrcvis]
    omega
  · rw [hB]
    exact hunvis sink ht hts

/-! ## Weak duality: value of a flow across a cut -/

/-- The value of a skew-symmetric flow conserved inside `S` equals its
net transfer across the cut `(S, [0,n) \ S)`. -/
theorem flow_value_cut (n s : Nat) (g : Nat → Nat → Int) (S : Finset Nat)
    (hS : S ⊆ Finset.range n) (hsS : s ∈ S)
    (hskew : ∀ u v, g u v = - g v u)
    (hcons : ∀ u, u ∈ S → u ≠ s → (Finset.range n).sum (fun v => g u v) = 0) :
    flowValue n s g
      = S.sum (fun u => ((Finset.range n) \ S).sum (fun v => g u v)) := by
  have h1 : S.sum (fun u => (Finset.range n).sum (fun v => g u v))
      = flowValue n s g :=
    Finset.sum_eq_single_of_mem s hsS (fun u hu hus => hcons u hu hus)
  have h2 : ∀ u : Nat, (Finset.range n).sum (fun v => g u v)
      = ((Finset.range n) \ S).sum (fun v => g u v) + S.sum (fun v => g u v) :=
    fun u => (Finset.sum_sdiff hS).symm
  have h3 : S.sum (fun u => S.sum (fun v => g u v)) = 0 := by
    have hcomm : S.sum (fun u => S.sum (fun v => g v u))
        = S.sum (fun u => S.sum (fun v => g u v)) := Finset.sum_comm
    have hzero : S.sum (fun u => S.sum (fun v => g u v))
        + S.sum (fun u => S.sum (fun v => g v u)) = 0 := by
      rw [← Finset.sum_add_distrib]
      apply Finset.sum_eq_zero
      intro u _
      rw [← Finset.sum_add_distrib]
      apply Finset.sum_eq_zero
      intro v _
      rw [hskew u v]
      ring
    omega
  have h4 : S.sum (fun u => (Finset.range n).sum (fun v => g u v))
      = S.sum (fun u => ((Finset.range n) \ S).sum (fun v => g u v))
        + S.sum (fun u => S.sum (fun v => g u v)) := by
    rw [← Finset.sum_add_distrib]
    exact Finset.sum_congr rfl (fun u _ => h2 u)
  rw [← h1, h4, h3]
  ring

/-- Weak duality made exact at the final state of `maxflow`: any
feasible flow for the engine's capacity matrix has value at most the
flow value `maxflow` returns (for networks whose adjacency lists are
symmetric and support every positive capacity, as `addEdge` builds
them). -/
theorem maxflow_ub (m : MaxFlow) (s t : Nat) (g : Nat → Nat → Int)
    (h0 : ∀ u v, 0 ≤ m.capacity u v) (hs : s < m.n) (ht : t < m.n) (hts : t ≠ s)
    (hmut : ∀ u v, u ∈ m.adj v → v ∈ m.adj u)
    (hsupp : ∀ u v, 0 < m.capacity u v → v ∈ m.adj u)
    (hg : Feasible m.n m.capacity s t g) :
    flowValue m.n s g ≤ (m.maxflow s t).1 := by
  have hm : m.maxflow s t
      = maxflowAux m.adj m.n s t (maxflowFuel m.n m.capacity s) m.capacity 0 := rfl
  have hfalse := maxflowAux_term m.adj m.n s t hs
    (maxflowFuel m.n m.capacity s) m.capacity 0 h0 (Nat.lt_succ_self _)
  rw [← hm] at hfalse
  have hnnF := maxflowAux_nonneg m.adj m.n s t hs
    (maxflowFuel m.n m.capacity s) m.capacity 0 h0
  rw [← hm] at hnnF
  have htouch := maxflowAux_touched m.adj m.n s t hs
    (maxflowFuel m.n m.capacity s) m.capacity 0 h0
  rw [← hm] at htouch
  obtain ⟨hsrcvis, hsinkslot, hclo⟩ :=
    bfs_false_closed m.n (m.maxflow s t).2 m.adj s t hs ht hts hfalse
  classical
  have hSsub : ((Finset.range m.n).filter
      (fun u => ¬ ((bfs m.n (m.maxflow s t).2 m.adj s t).2.getD u 0 = -1)))
      ⊆ Finset.range m.n := Finset.filter_subset _ _
  have hsS : s ∈ (Finset.range m.n).filter
      (fun u => ¬ ((bfs m.n (m.maxflow s t).2 m.adj s t).2.getD u 0 = -1)) :=
    Finset.mem_filter.2 ⟨Finset.mem_range.2 hs, hsrcvis⟩
  have htS : t ∉ (Finset.range m.n).filter
      (fun u => ¬ ((bfs m.n (m.maxflow s t).2 m.adj s t).2.getD u 0 = -1)) :=
    fun hc => (Finset.mem_filter.1 hc).2 hsinkslot
  obtain ⟨hfeas2, hval2⟩ := maxflow_feasible_value m s t h0 hs hts
  obtain ⟨hskew2, hcap2, hcons2⟩ := hfeas2
  obtain ⟨hskewg, hcapg, hconsg⟩ := hg
  have hgcut := flow_value_cut m.n s g
    ((Finset.range m.n).filter
      (fun u => ¬ ((bfs m.n (m.maxflow s t).2 m.adj s t).2.getD u 0 = -1)))
    hSsub hsS hskewg
    (fun u huS hus => hconsg u (Finset.mem_range.1 (hSsub huS)) hus
      (fun h => htS (h ▸ huS)))
  have hf2cut := flow_value_cut m.n s
    (fun u v => m.capacity u v - (m.maxflow s t).2 u v)
    ((Finset.range m.n).filter
      (fun u => ¬ ((bfs m.n (m.maxflow s t).2 m.adj s t).2.getD u 0 = -1)))
    hSsub hsS hskew2
    (fun u huS hus => hcons2 u (Finset.mem_range.1 (hSsub huS)) hus
      (fun h => htS (h ▸ huS)))
  have hcutEq : ∀ u ∈ (Finset.range m.n).filter
      (fun u => ¬ ((bfs m.n (m.maxflow s t).2 m.adj s t).2.getD u 0 = -1)),
      ∀ v ∈ (Finset.range m.n) \ ((Finset.range m.n).filter
      (fun u => ¬ ((bfs m.n (m.maxflow s t).2 m.adj s t).2.getD u 0 = -1))),
      m.capacity u v - (m.maxflow s t).2 u v = m.capacity u v := by
    intro u huS v hv
    obtain ⟨hvn, hvnotS⟩ := Finset.mem_sdiff.1 hv
    have hun : u < m.n := Finset.mem_range.1 (hSsub huS)
    have huvis : ¬ ((bfs m.n (m.maxflow s t).2 m.adj s t).2.getD u 0 = -1) :=
      (Finset.mem_filter.1 huS).2
    have hvnotvis :
        ¬ ¬ ((bfs m.n (m.maxflow s t).2 m.adj s t).2.getD v 0 = -1) :=
      fun hvis => hvnotS (Finset.mem_filter.2 ⟨hvn, hvis⟩)
    by_cases hadj : v ∈ m.adj u
    · have hnpos : ¬ (0 < (m.maxflow s t).2 u v) :=
        fun hpos => hvnotvis (hclo u hun huvis v hadj hpos)
      have h1 := hnnF u v
      have hz : (m.maxflow s t).2 u v = 0 := by omega
      rw [hz]
      ring
    · have huntouched : (m.maxflow s t).2 u v = m.capacity u v := by
        by_contra hne
        rcases htouch u v hne with h | h
        · exact hadj h
        · exact hadj (hmut u v h)
      have hcz : m.capacity u v = 0 := by
        by_contra hne
        have h1 := h0 u v
        exact hadj (hsupp u v (by omega))
      rw [huntouched]
      omega
  calc flowValue m.n s g
      = ((Finset.range m.n).filter
          (fun u => ¬ ((bfs m.n (m.maxflow s t).2 m.adj s t).2.getD u 0 = -1))).sum
          (fun u => ((Finset.range m.n) \ (Finset.range m.n).filter
            (fun u => ¬ ((bfs m.n (m.maxflow s t).2 m.adj s t).2.getD u 0 = -1))).sum
            (fun v => g u v)) := hgcut
    _ ≤ ((Finset.range m.n).filter
          (fun u => ¬ ((bfs m.n (m.maxflow s t).2 m.adj s t).2.getD u 0 = -1))).sum
          (fun u => ((Finset.range m.n) \ (Finset.range m.n).filter
            (fun u => ¬ ((bfs m.n (m.maxflow s t).2 m.adj s t).2.getD u 0 = -1))).sum
            (fun v => m.capacity u v)) := by
        apply Finset.sum_le_sum
        intro u huS
        apply Finset.sum_le_sum
        intro v hv
        exact hcapg u v (Finset.mem_range.1 (hSsub huS))
          (Finset.mem_range.1 (Finset.mem_sdiff.1 hv).1)
    _ = ((Finset.range m.n).filter
          (fun u => ¬ ((bfs m.n (m.maxflow s t).2 m.adj s t).2.getD u 0 = -1))).sum
          (fun u => ((Finset.range m.n) \ (Finset.range m.n).filter
            (fun u => ¬ ((bfs m.n (m.maxflow s t).2 m.adj s t).2.getD u 0 = -1))).sum
            (fun v => m.capacity u v - (m.maxflow s t).2 u v)) := by
        apply Finset.sum_congr rfl
        intro u huS
        apply Finset.sum_congr rfl
        intro v hv
        exact (hcutEq u huS v hv).symm
    _ = flowValue m.n s (fun u v => m.capacity u v - (m.maxflow s t).2 u v) :=
        hf2cut.symm
    _ = (m.maxflow s t).1 := hval2

/-- Claim C8: for every capacitated network and every choice of source
and sink, increasing the capacity of any edge while keeping the
adjacency lists (topology) fixed never decreases the maximum flow value
returned by `solve`: with the same node count and adjacency, entrywise
larger capacities — in particular a single edge's capacity raised — give
a `maxflow` value at least as large (for well-formed networks: symmetric
adjacency supporting every positive capacity, as `addEdge` builds
them). -/
theorem C8_monotonicity (m1 m2 : MaxFlow) (s t : Nat)
    (hn : m1.n = m2.n) (_hadj : m1.adj = m2.adj)
    (hle : ∀ u v, m1.capacity u v ≤ m2.capacity u v)
    (h01 : ∀ u v, 0 ≤ m1.capacity u v) (h02 : ∀ u v, 0 ≤ m2.capacity u v)
    (hmut : ∀ u v, u ∈ m2.adj v → v ∈ m2.adj u)
    (hsupp : ∀ u v, 0 < m2.capacity u v → v ∈ m2.adj u)
    (hs : s < m2.n) (ht : t < m2.n) (hts : t ≠ s) :
    (m1.maxflow s t).1 ≤ (m2.maxflow s t).1 := by
  have hs1 : s < m1.n := by rw [hn]; exact hs
  obtain ⟨⟨hskew1, hcap1, hcons1⟩, hval1⟩ :=
    maxflow_feasible_value m1 s t h01 hs1 hts
  have hfeas : Feasible m2.n m2.capacity s t
      (fun u v => m1.capacity u v - (m1.maxflow s t).2 u v) := by
    refine ⟨hskew1, ?_, ?_⟩
    · intro u v hun hvn
      exact le_trans (hcap1 u v (by rw [hn]; exact hun) (by rw [hn]; exact hvn))
        (hle u v)
    · intro u hun hus hut
      have h := hcons1 u (by rw [hn]; exact hun) hus hut
      rw [← hn]
      exact h
  have hub := maxflow_ub m2 s t
    (fun u v => m1.capacity u v - (m1.maxflow s t).2 u v)
    h02 hs ht hts hmut hsupp hfeas
  have hvx : flowValue m2.n s
      (fun u v => m1.capacity u v - (m1.maxflow s t).2 u v)
      = (m1.maxflow s t).1 := by
    rw [flowValue, ← hn]
    exact hval1
  rw [hvx] at hub
  exact hub

theorem C8_monotonicity_witness :
    (MaxFlow.maxflow
        ⟨2, fun u v => if u = 0 ∧ v = 1 then 3 else 0,
          fun w => if w = 0 then [1] else if w = 1 then [0] else []⟩ 0 1).1
      ≤ (MaxFlow.maxflow
        ⟨2, fun u v => if u = 0 ∧ v = 1 then 5 else 0,
          fun w => if w = 0 then [1] else if w = 1 then [0] else []⟩ 0 1).1 :=
  C8_monotonicity
    ⟨2, fun u v => if u = 0 ∧ v = 1 then 3 else 0,
      fun w => if w = 0 then [1] else if w = 1 then [0] else []⟩
    ⟨2, fun u v => if u = 0 ∧ v = 1 then 5 else 0,
      fun w => if w = 0 then [1] else if w = 1 then [0] else []⟩
    0 1 rfl rfl
    (by
      intro u v
      show (if u = 0 ∧ v = 1 then (3 : Int) else 0)
        ≤ (if u = 0 ∧ v = 1 then (5 : Int) else 0)
      by_cases h : u = 0 ∧ v = 1
      · rw [if_pos h, if_pos h]
        omega
      · rw [if_neg h, if_neg h])
    (by
      intro u v
      show (0 : Int) ≤ if u = 0 ∧ v = 1 then (3 : Int) else 0
      by_cases h : u = 0 ∧ v = 1
      · rw [if_pos h]
        omega
      · rw [if_neg h])
    (by
      intro u v
      show (0 : Int) ≤ if u = 0 ∧ v = 1 then (5 : Int) else 0
      by_cases h : u = 0 ∧ v = 1
      · rw [if_pos h]
        omega
      · rw [if_neg h])
    (by
      intro u v h
      rcases v with _ | _ | v
      · have h2 : u ∈ [1] := h
        rw [List.mem_singleton] at h2
        subst h2
        show (0 : Nat) ∈ [0]
        exact List.mem_singleton.2 rfl
      · have h2 : u ∈ [0] := h
        rw [List.mem_singleton] at h2
        subst h2
        show (1 : Nat) ∈ [1]
        exact List.mem_singleton.2 rfl
      · have h2 : u ∈ ([] : List Nat) := by
          have he : (if v + 2 = 0 then [1] else if v + 2 = 1 then [0] else [])
              = ([] : List Nat) := by
            rw [if_neg (by omega : ¬ v + 2 = 0), if_neg (by omega : ¬ v + 2 = 1)]
          exact he ▸
            (h : u ∈ if v + 2 = 0 then [1] else if v + 2 = 1 then [0] else [])
        exact absurd h2 (List.not_mem_nil u))
    (by
      intro u v h
      by_cases hc : u = 0 ∧ v = 1
      · obtain ⟨hu, hv⟩ := hc
        subst hu
        subst hv
        show (1 : Nat) ∈ [1]
        exact List.mem_singleton.2 rfl
      · exfalso
        have h3 : (0 : Int) < if u = 0 ∧ v = 1 then (5 : Int) else 0 := h
        rw [if_neg hc] at h3
        exact absurd h3 (lt_irrefl 0))
    (by decide) (by decide) (by decide)

end NetworkFlow
